import Mathlib

/-!
Verification of the calibration core of the RADAR AI-text detection repository
(`implement.py`).

The repository's calibration logic consists of three functions:

* `get_roc_metrics(human_preds, ai_preds)` — builds the ROC curve with
  `sklearn.metrics.roc_curve` (labels `0` for the human batch, `1` for the ai
  batch, `pos_label=1`, default `drop_intermediate=True`), computes the AUC
  with `sklearn.metrics.auc` (trapezoidal rule), and selects the operating
  threshold with `np.argmax(tpr - fpr)` (Youden's J statistic).
* `adjust_lambda(human_preds, ai_preds, target_fp_rate, current_lambda, alpha)`
  — recomputes the threshold, measures the observed false-positive rate on the
  human batch (strict `>` against the threshold), takes a step of size
  `min(0.1, |observed - target|)` clamped to `[0.1, 1.0]`, and exponentially
  smooths the result.
* `classify_text(prob, threshold)` — returns `"Human"` if `prob < threshold`,
  else `"AI"`.

Scores are embedded as exact rationals (`ℚ`).  The sentinel threshold
`np.inf` that sklearn prepends to the threshold array (sklearn ≥ 1.3; older
versions used `max_score + 1`, which is likewise larger than every score) is
embedded as `⊤ : WithTop ℚ`.  The all-NaN rate arrays that `roc_curve`
produces when one of the batches is empty (`fps[-1] <= 0` / `tps[-1] <= 0`)
are embedded as `none : Option (List ℚ)`; a NaN AUC is `none : Option ℚ`.
Python exceptions are embedded with `Except`.
-/

/-- The binary classification result of `classify_text` (`"Human"` / `"AI"`). -/
inductive Label where
  | Human
  | AI
deriving DecidableEq, Repr

/-- The exceptions the embedded calibration code can raise.  These are the
Python/NumPy exceptions actually reachable in `implement.py`:
`indexError` (NumPy fancy-indexing an empty array inside `roc_curve` when both
batches are empty), `zeroDivisionError` (`/ len(human_preds)` in
`adjust_lambda` with an empty human batch), and `valueError` (raised by
`sklearn.metrics.auc` for a too-short or non-monotone x-array).  The
repository defines no error taxonomy of its own (no `InsufficientData`,
`DegenerateScores` or `InvalidInput` errors exist in the code). -/
inductive CalibError where
  | indexError
  | zeroDivisionError
  | valueError
deriving DecidableEq, Repr

instance {ε α : Type} [DecidableEq ε] [DecidableEq α] : DecidableEq (Except ε α) := fun a b =>
  match a, b with
  | .ok x, .ok y =>
    if h : x = y then .isTrue (congrArg Except.ok h) else .isFalse (fun hh => h (Except.ok.inj hh))
  | .error e, .error f =>
    if h : e = f then .isTrue (congrArg Except.error h)
    else .isFalse (fun hh => h (Except.error.inj hh))
  | .ok _, .error _ => .isFalse (fun hh => Except.noConfusion hh)
  | .error _, .ok _ => .isFalse (fun hh => Except.noConfusion hh)

/--
`classify_text(prob, threshold)` from `implement.py` (the source's default
threshold is `0.5`):

```
def classify_text(prob, threshold=0.5):
    if prob < threshold:
        return "Human"
    else:
        return "AI"
```
-/
def classify_text (prob : ℚ) (threshold : ℚ) : Label :=
  if prob < threshold then .Human else .AI

/-- One point of the un-normalised ROC sweep of `sklearn`'s
`_binary_clf_curve`: `(false positives, true positives, threshold value)`.
The counts are carried as rationals because they are divided later. -/
abbrev RocPoint : Type := ℚ × ℚ × ℚ

/-- The number of scores in `l` that are `≥ v`, as a rational.  In
`_binary_clf_curve` this is the value of the cumulative sums `tps` / `fps`
at the end of the run of scores equal to `v` in the descending sort. -/
def countGe (l : List ℚ) (v : ℚ) : ℚ :=
  ((l.countP (fun s => decide (v ≤ s)) : ℕ) : ℚ)

/-- The distinct score values in strictly decreasing order.  `_binary_clf_curve`
sorts the scores in descending order (stable mergesort) and keeps one
threshold per run of equal scores (`np.where(np.diff(y_score))`), which
yields exactly the distinct values, descending; the result depends only on
the multiset of scores, so it is computed here with `insertionSort`. -/
def distinctDesc (l : List ℚ) : List ℚ :=
  (l.insertionSort (· ≥ ·)).dedup

/-- The un-normalised ROC sweep of `roc_curve(y_true, y_scores, pos_label=1)`
where `y_true = [0]*len(human_preds) + [1]*len(ai_preds)` and
`y_scores = human_preds + ai_preds` (as built in `get_roc_metrics`):
for each distinct threshold `v` (descending), the pair of counts
`fps = #{human score ≥ v}`, `tps = #{ai score ≥ v}`, and `v` itself. -/
def rocSweepRaw (human_preds ai_preds : List ℚ) : List RocPoint :=
  (distinctDesc (human_preds ++ ai_preds)).map
    (fun v => (countGe human_preds v, countGe ai_preds v, v))

/-- The keep-condition of `roc_curve`'s `drop_intermediate` pruning: an
interior point `q` (with original neighbours `p` and `r`) is kept iff the
second difference of `fps` or of `tps` at `q` is nonzero
(`np.logical_or(np.diff(fps, 2), np.diff(tps, 2))`). -/
def isCorner (p q r : RocPoint) : Bool :=
  decide ((r.1 - q.1) - (q.1 - p.1) ≠ 0) || decide ((r.2.1 - q.2.1) - (q.2.1 - p.2.1) ≠ 0)

/-- Walk of `drop_intermediate` over the interior points: `p` is always the
*original* predecessor (the mask is computed on the original arrays), the
last point is always kept. -/
def dropInner (p : RocPoint) : List RocPoint → List RocPoint
  | [] => []
  | [q] => [q]
  | q :: r :: rest =>
    if isCorner p q r then q :: dropInner q (r :: rest) else dropInner q (r :: rest)

/-- `roc_curve`'s `drop_intermediate` pruning: suboptimal collinear points are
removed; the first and last points are always kept; lists of length ≤ 2 are
returned unchanged (`if drop_intermediate and len(fps) > 2`). -/
def dropIntermediate (l : List RocPoint) : List RocPoint :=
  if l.length ≤ 2 then l
  else
    match l with
    | [] => []
    | p :: rest => p :: dropInner p rest

/-- The ROC sweep after `drop_intermediate`. -/
def rocKept (human_preds ai_preds : List ℚ) : List RocPoint :=
  dropIntermediate (rocSweepRaw human_preds ai_preds)

/-- The `fps` array after prepending the origin (`fps = np.r_[0, fps]`). -/
def fpsList (human_preds ai_preds : List ℚ) : List ℚ :=
  0 :: (rocKept human_preds ai_preds).map (fun p => p.1)

/-- The `tps` array after prepending the origin (`tps = np.r_[0, tps]`). -/
def tpsList (human_preds ai_preds : List ℚ) : List ℚ :=
  0 :: (rocKept human_preds ai_preds).map (fun p => p.2.1)

/-- The thresholds array after prepending the sentinel
(`thresholds = np.r_[np.inf, thresholds]`). -/
def thrList (human_preds ai_preds : List ℚ) : List (WithTop ℚ) :=
  ⊤ :: (rocKept human_preds ai_preds).map (fun p => (p.2.2 : WithTop ℚ))

/-- `fps[-1]`, the total number of negatives swept. -/
def fpsLast (human_preds ai_preds : List ℚ) : ℚ :=
  (fpsList human_preds ai_preds).getLastD 0

/-- `tps[-1]`, the total number of positives swept. -/
def tpsLast (human_preds ai_preds : List ℚ) : ℚ :=
  (tpsList human_preds ai_preds).getLastD 0

/-- The elementwise quotient `fps / fps[-1]`. -/
def fprList (human_preds ai_preds : List ℚ) : List ℚ :=
  (fpsList human_preds ai_preds).map (fun x => x / fpsLast human_preds ai_preds)

/-- The elementwise quotient `tps / tps[-1]`. -/
def tprList (human_preds ai_preds : List ℚ) : List ℚ :=
  (tpsList human_preds ai_preds).map (fun x => x / tpsLast human_preds ai_preds)

/-- The `fpr` array of `roc_curve`: an all-NaN array (`none`) when
`fps[-1] <= 0` (empty human batch), the normalised rates otherwise. -/
def fprOpt (human_preds ai_preds : List ℚ) : Option (List ℚ) :=
  if fpsLast human_preds ai_preds ≤ 0 then none else some (fprList human_preds ai_preds)

/-- The `tpr` array of `roc_curve`: an all-NaN array (`none`) when
`tps[-1] <= 0` (empty ai batch), the normalised rates otherwise. -/
def tprOpt (human_preds ai_preds : List ℚ) : Option (List ℚ) :=
  if tpsLast human_preds ai_preds ≤ 0 then none else some (tprList human_preds ai_preds)

/-- `np.diff`: successive differences. -/
def npDiff : List ℚ → List ℚ
  | x :: y :: rest => (y - x) :: npDiff (y :: rest)
  | _ => []

/-- `np.trapz(y, x)`: trapezoidal integration of `y` over `x`. -/
def npTrapz : List ℚ → List ℚ → ℚ
  | y0 :: y1 :: ys, x0 :: x1 :: xs => (x1 - x0) * (y0 + y1) / 2 + npTrapz (y1 :: ys) (x1 :: xs)
  | _, _ => 0

/-- The maximum of a list of rationals (helper for `npArgmaxQ`; `0` on `[]`). -/
def listMax : List ℚ → ℚ
  | [] => 0
  | [x] => x
  | x :: y :: rest => max x (listMax (y :: rest))

/-- `np.argmax` on an array of (non-NaN) rationals: the index of the *first*
occurrence of the maximum (`0` on the empty list). -/
def npArgmaxQ : List ℚ → ℕ
  | [] => 0
  | [_] => 0
  | x :: y :: rest => if x < listMax (y :: rest) then npArgmaxQ (y :: rest) + 1 else 0

/-- `sklearn.metrics.auc(x, y)` applied to the possibly-NaN `fpr`/`tpr`
arrays (`n` is their common length, needed for the shape check when the
arrays are NaN): raises `ValueError` if the array has fewer than 2 points;
computes `direction` from `np.any(np.diff(x) < 0)` / `np.all(np.diff(x) <= 0)`
(NaN comparisons are `False`, so NaN input silently yields a NaN area);
returns `direction * np.trapz(y, x)`. -/
def aucE (x y : Option (List ℚ)) (n : ℕ) : Except CalibError (Option ℚ) :=
  if n < 2 then .error .valueError
  else
    match x, y with
    | some xs, some ys =>
      if (npDiff xs).any (fun d => decide (d < 0)) then
        if (npDiff xs).all (fun d => decide (d ≤ 0)) then .ok (some (-(npTrapz ys xs)))
        else .error .valueError
      else .ok (some (npTrapz ys xs))
    | _, _ => .ok none

/-- The array `tpr - fpr` whose argmax picks the operating point
(meaningful when both batches are non-empty, i.e. neither array is NaN). -/
def rocJList (human_preds ai_preds : List ℚ) : List ℚ :=
  List.zipWith (fun t f => t - f) (tprList human_preds ai_preds) (fprList human_preds ai_preds)

/-- `optimal_idx = np.argmax(tpr - fpr)`.  When either rate array is all-NaN
the difference array is all-NaN and NumPy's argmax returns the index of the
first NaN, which is `0`. -/
def optIdx (human_preds ai_preds : List ℚ) : ℕ :=
  if fpsLast human_preds ai_preds ≤ 0 ∨ tpsLast human_preds ai_preds ≤ 0 then 0
  else npArgmaxQ (rocJList human_preds ai_preds)

/-- `optimal_threshold = thresholds[optimal_idx]`. -/
def optThreshold (human_preds ai_preds : List ℚ) : WithTop ℚ :=
  (thrList human_preds ai_preds).getD (optIdx human_preds ai_preds) ⊤

/-- The quadruple returned by `get_roc_metrics`:
`(fpr.tolist(), tpr.tolist(), float(roc_auc), optimal_threshold)`. -/
structure RocMetrics where
  fpr : Option (List ℚ)
  tpr : Option (List ℚ)
  roc_auc : Option ℚ
  threshold : WithTop ℚ
deriving DecidableEq, Repr

/-- `get_roc_metrics(human_preds, ai_preds)` from `implement.py`.  With both
batches empty, `_binary_clf_curve` raises an `IndexError` (it indexes the
empty cumulative-sum array at position `-1`); otherwise the ROC sweep, the
pruning, the prepended origin/sentinel, the (possibly NaN) rate arrays, the
AUC and the Youden-J-argmax threshold are computed as modelled above. -/
def get_roc_metrics (human_preds ai_preds : List ℚ) : Except CalibError RocMetrics :=
  if human_preds ++ ai_preds = [] then .error .indexError
  else
    match aucE (fprOpt human_preds ai_preds) (tprOpt human_preds ai_preds)
        (fpsList human_preds ai_preds).length with
    | .error e => .error e
    | .ok auc =>
      .ok ⟨fprOpt human_preds ai_preds, tprOpt human_preds ai_preds, auc,
        optThreshold human_preds ai_preds⟩

/-- `adjust_lambda(human_preds, ai_preds, target_fp_rate, current_lambda, alpha)`
from `implement.py` (the source's defaults are `0.05`, `0.5`, `0.3`):

```
_, _, _, optimal_threshold = get_roc_metrics(human_preds, ai_preds)
false_positive_rate = sum([1 for p in human_preds if p > optimal_threshold]) / len(human_preds)
step_size = min(0.1, abs(false_positive_rate - target_fp_rate))
if false_positive_rate > target_fp_rate:
    new_lambda = max(0.1, current_lambda - step_size)
else:
    new_lambda = min(1.0, current_lambda + step_size)
smoothed_lambda = alpha * new_lambda + (1 - alpha) * current_lambda
return smoothed_lambda, optimal_threshold
```

The division by `len(human_preds)` raises `ZeroDivisionError` when the human
batch is empty (comparisons against an infinite threshold are `False`, as in
Python). -/
def adjust_lambda (human_preds ai_preds : List ℚ) (target_fp_rate current_lambda alpha : ℚ) :
    Except CalibError (ℚ × WithTop ℚ) :=
  match get_roc_metrics human_preds ai_preds with
  | .error e => .error e
  | .ok r =>
    if human_preds.length = 0 then .error .zeroDivisionError
    else
      let false_positive_rate : ℚ :=
        ((human_preds.countP (fun p => decide (r.threshold < (p : WithTop ℚ))) : ℕ) : ℚ) /
          (human_preds.length : ℚ)
      let step_size := min (1 / 10) |false_positive_rate - target_fp_rate|
      let new_lambda :=
        if false_positive_rate > target_fp_rate then max (1 / 10) (current_lambda - step_size)
        else min 1 (current_lambda + step_size)
      let smoothed_lambda := alpha * new_lambda + (1 - alpha) * current_lambda
      .ok (smoothed_lambda, r.threshold)

/-- The Lambda Controller's persistent record (spec §3 `CalibrationState`). -/
structure CalibrationState where
  current_lambda : ℚ
  target_fp_rate : ℚ
  smoothing_alpha : ℚ
deriving DecidableEq, Repr

/-- Modelled from the spec: the stateful `update` operation of the Lambda
Controller (§4.3).  The repository's `src` contains only the pure
`adjust_lambda`; the wrapper that owns a `CalibrationState` and stores the
smoothed lambda back into it (step 6) is described in the spec but absent
from the source, so it is modelled here from the spec's words: run steps 1–5
via `adjust_lambda`; on success store the smoothed lambda (step 6); a raised
exception propagates to the caller before the store, leaving the state as it
was. -/
def updateRun (s : CalibrationState) (human_preds ai_preds : List ℚ) :
    Except CalibError (ℚ × WithTop ℚ) × CalibrationState :=
  match adjust_lambda human_preds ai_preds s.target_fp_rate s.current_lambda s.smoothing_alpha with
  | .ok (l, t) => (.ok (l, t), { s with current_lambda := l })
  | .error e => (.error e, s)

/-! ### Helper lemmas -/

lemma length_ne_zero_of_ne_nil {α : Type} {l : List α} (h : l ≠ []) : l.length ≠ 0 :=
  fun h0 => h (List.length_eq_zero.mp h0)

/-- The observed false-positive rate of `adjust_lambda`:
`sum([1 for p in human_preds if p > optimal_threshold]) / len(human_preds)`. -/
def observedFpRate (human_preds : List ℚ) (thr : WithTop ℚ) : ℚ :=
  ((human_preds.countP (fun p => decide (thr < (p : WithTop ℚ))) : ℕ) : ℚ) /
    (human_preds.length : ℚ)

lemma adjust_lambda_err (human_preds ai_preds : List ℚ) (t c α : ℚ) (e : CalibError)
    (hr : get_roc_metrics human_preds ai_preds = .error e) :
    adjust_lambda human_preds ai_preds t c α = .error e := by
  unfold adjust_lambda
  rw [hr]

/-- Unfolding `adjust_lambda` on the success path. -/
lemma adjust_lambda_eq (human_preds ai_preds : List ℚ) (t c α : ℚ) (r : RocMetrics)
    (hne : human_preds ≠ [])
    (hr : get_roc_metrics human_preds ai_preds = .ok r) :
    adjust_lambda human_preds ai_preds t c α =
      Except.ok (α * (if observedFpRate human_preds r.threshold > t
          then max (1 / 10) (c - min (1 / 10) |observedFpRate human_preds r.threshold - t|)
          else min 1 (c + min (1 / 10) |observedFpRate human_preds r.threshold - t|)) +
        (1 - α) * c, r.threshold) := by
  unfold adjust_lambda observedFpRate
  simp only [hr, if_neg (length_ne_zero_of_ne_nil hne)]

/-- The clamped step stays in `[0.1, 1]` and moves by at most `step_size ≤ 0.1`. -/
lemma new_lambda_bounds (fp t c : ℚ) (hc1 : 1 / 10 ≤ c) (hc2 : c ≤ 1) :
    (1 / 10 ≤ (if fp > t then max (1 / 10) (c - min (1 / 10) |fp - t|)
        else min 1 (c + min (1 / 10) |fp - t|))) ∧
    ((if fp > t then max (1 / 10) (c - min (1 / 10) |fp - t|)
        else min 1 (c + min (1 / 10) |fp - t|)) ≤ 1) ∧
    |(if fp > t then max (1 / 10) (c - min (1 / 10) |fp - t|)
        else min 1 (c + min (1 / 10) |fp - t|)) - c| ≤ 1 / 10 := by
  have hs0 : (0 : ℚ) ≤ min (1 / 10) |fp - t| := le_min (by norm_num) (abs_nonneg _)
  have hs1 : min (1 / 10) |fp - t| ≤ 1 / 10 := min_le_left _ _
  set s := min (1 / 10) |fp - t| with hs
  by_cases hb : fp > t
  · rw [if_pos hb]
    refine ⟨le_max_left _ _, max_le (by norm_num) (by linarith), ?_⟩
    rcases le_total (1 / 10) (c - s) with h | h
    · rw [max_eq_right h, abs_le]; constructor <;> linarith
    · rw [max_eq_left h, abs_le]; constructor <;> linarith
  · rw [if_neg hb]
    refine ⟨le_min (by norm_num) (by linarith), min_le_left _ _, ?_⟩
    rcases le_total (c + s) 1 with h | h
    · rw [min_eq_right h, abs_le]; constructor <;> linarith
    · rw [min_eq_left h, abs_le]; constructor <;> linarith

/-- Concrete run of `adjust_lambda` used by the witnesses below. -/
lemma adjust_lambda_standard_run :
    adjust_lambda [1 / 2] [3 / 4] (1 / 20) (1 / 2) (3 / 10) =
      .ok (103 / 200, (((3 : ℚ) / 4 : ℚ) : WithTop ℚ)) := by
  norm_num [adjust_lambda, get_roc_metrics, aucE, fprOpt, tprOpt, fprList, tprList,
    fpsList, tpsList, fpsLast, tpsLast, thrList, rocKept, rocSweepRaw, distinctDesc,
    countGe, dropIntermediate, dropInner, isCorner, npTrapz, npDiff, npArgmaxQ, listMax,
    rocJList, optIdx, optThreshold, List.insertionSort, List.orderedInsert,
    List.dedup, List.pwFilter, List.countP, List.countP.go, List.cons_ne_nil,
    min_def, max_def, abs_of_nonneg, abs_of_nonpos]

/-- Concrete failing run of `adjust_lambda` (empty human batch). -/
lemma adjust_lambda_zero_div_run :
    adjust_lambda [] [1 / 2] (1 / 20) (1 / 2) (3 / 10) = .error .zeroDivisionError := by
  norm_num [adjust_lambda, get_roc_metrics, aucE, fprOpt, tprOpt, fprList, tprList,
    fpsList, tpsList, fpsLast, tpsLast, thrList, rocKept, rocSweepRaw, distinctDesc,
    countGe, dropIntermediate, dropInner, isCorner, npTrapz, npDiff, npArgmaxQ, listMax,
    rocJList, optIdx, optThreshold, List.insertionSort, List.orderedInsert,
    List.dedup, List.pwFilter, List.countP, List.countP.go, List.cons_ne_nil,
    min_def, max_def, abs_of_nonneg, abs_of_nonpos]

/-! ### Claim C4 -/

/-- C4: `classify_text` returns AI exactly when the probability is `≥` the
threshold and Human when it is `<` the threshold; in particular
`classify_text 0.5 0.4 = AI` and `classify_text 0.39999 0.4 = Human`. -/
theorem classify_text_spec :
    classify_text (1 / 2) (2 / 5) = Label.AI ∧
    classify_text (39999 / 100000) (2 / 5) = Label.Human ∧
    ∀ p t : ℚ, classify_text p t = if t ≤ p then Label.AI else Label.Human := by
  refine ⟨by norm_num [classify_text], by norm_num [classify_text], fun p t => ?_⟩
  unfold classify_text
  rcases lt_or_le p t with h | h
  · rw [if_pos h, if_neg (not_le.mpr h)]
  · rw [if_neg (not_lt.mpr h), if_pos h]

/-! ### Claim C8 -/

/-- C8 counterexample: for the out-of-domain probability `1.5`,
`classify_text` does not fail with any `InvalidInput` error — it has no
failure mode at all and simply returns `AI`. -/
theorem classify_text_no_validation_counterexample :
    classify_text (3 / 2) (2 / 5) = Label.AI := by
  norm_num [classify_text]

/-- C8 (amended): `classify_text` performs no input validation and has no
failure modes: even for probabilities outside `[0, 1]` it totally returns
`AI` when `probability ≥ threshold` and `Human` otherwise, with no state or
side effects. -/
theorem classify_text_total_outside_domain :
    ∀ p t : ℚ, p < 0 ∨ 1 < p →
      (classify_text p t = Label.AI ↔ t ≤ p) ∧ (classify_text p t = Label.Human ↔ p < t) := by
  intro p t _
  unfold classify_text
  rcases lt_or_le p t with h | h
  · rw [if_pos h]
    exact ⟨⟨fun hh => Label.noConfusion hh, fun hh => absurd h (not_lt.mpr hh)⟩,
      ⟨fun _ => h, fun _ => rfl⟩⟩
  · rw [if_neg (not_lt.mpr h)]
    exact ⟨⟨fun _ => h, fun _ => rfl⟩,
      ⟨fun hh => Label.noConfusion hh, fun hh => absurd h (not_le.mpr hh)⟩⟩

theorem classify_text_total_outside_domain_witness :
    ((3 : ℚ) / 2 < 0 ∨ 1 < (3 : ℚ) / 2) ∧
      ((classify_text (3 / 2) (2 / 5) = Label.AI ↔ (2 : ℚ) / 5 ≤ 3 / 2) ∧
        (classify_text (3 / 2) (2 / 5) = Label.Human ↔ (3 : ℚ) / 2 < 2 / 5)) :=
  ⟨Or.inr (by norm_num),
    classify_text_total_outside_domain (3 / 2) (2 / 5) (Or.inr (by norm_num))⟩

/-! ### Claim C9 -/

/-- C9: if the Lambda Controller's `update` fails at any step before the
final store (the calibration raising on its inputs), `current_lambda` — and
the whole calibration state — is left unmodified. -/
theorem updateRun_state_unchanged_on_failure :
    ∀ (s : CalibrationState) (human_preds ai_preds : List ℚ) (e : CalibError),
      (updateRun s human_preds ai_preds).1 = .error e →
      (updateRun s human_preds ai_preds).2 = s := by
  intro s hp ap e hfail
  unfold updateRun at hfail ⊢
  cases hm : adjust_lambda hp ap s.target_fp_rate s.current_lambda s.smoothing_alpha with
  | ok v =>
    rw [hm] at hfail
    obtain ⟨l, tv⟩ := v
    exact absurd hfail (fun hh => Except.noConfusion hh)
  | error f => rfl

theorem updateRun_state_unchanged_on_failure_witness :
    (updateRun ⟨1 / 2, 1 / 20, 3 / 10⟩ [] [1 / 2]).1 = .error .zeroDivisionError ∧
      (updateRun ⟨1 / 2, 1 / 20, 3 / 10⟩ [] [1 / 2]).2 = ⟨1 / 2, 1 / 20, 3 / 10⟩ :=
  ⟨by unfold updateRun; rw [adjust_lambda_zero_div_run],
    updateRun_state_unchanged_on_failure ⟨1 / 2, 1 / 20, 3 / 10⟩ [] [1 / 2]
      .zeroDivisionError (by unfold updateRun; rw [adjust_lambda_zero_div_run])⟩

/-! ### Claim C2 -/

/-- C2: for every starting `current_lambda` in `[0.1, 1]`, every
`target_fp_rate` and every `smoothing_alpha` in `[0, 1]`, the smoothed
lambda returned by `adjust_lambda` lies within `[0.1, 1]`. -/
theorem adjust_lambda_range (human_preds ai_preds : List ℚ) (t c α l : ℚ) (thr : WithTop ℚ)
    (hne : human_preds ≠ []) (hc1 : 1 / 10 ≤ c) (hc2 : c ≤ 1) (hα1 : 0 ≤ α) (hα2 : α ≤ 1)
    (hok : adjust_lambda human_preds ai_preds t c α = .ok (l, thr)) :
    1 / 10 ≤ l ∧ l ≤ 1 := by
  cases hm : get_roc_metrics human_preds ai_preds with
  | error f =>
    rw [adjust_lambda_err human_preds ai_preds t c α f hm] at hok
    exact absurd hok (fun hh => Except.noConfusion hh)
  | ok r =>
    rw [adjust_lambda_eq human_preds ai_preds t c α r hne hm] at hok
    injection hok with h1
    injection h1 with hl hthr
    set fp := observedFpRate human_preds r.threshold with hfp
    obtain ⟨hn1, hn2, -⟩ := new_lambda_bounds fp t c hc1 hc2
    set nl := (if fp > t then max (1 / 10) (c - min (1 / 10) |fp - t|)
        else min 1 (c + min (1 / 10) |fp - t|)) with hnl
    have h1 : α * (1 / 10) ≤ α * nl := mul_le_mul_of_nonneg_left hn1 hα1
    have h2 : (1 - α) * (1 / 10) ≤ (1 - α) * c := mul_le_mul_of_nonneg_left hc1 (by linarith)
    have h3 : α * nl ≤ α * 1 := mul_le_mul_of_nonneg_left hn2 hα1
    have h4 : (1 - α) * c ≤ (1 - α) * 1 := mul_le_mul_of_nonneg_left hc2 (by linarith)
    constructor <;> rw [← hl] <;> linarith

theorem adjust_lambda_range_witness :
    (([(1 : ℚ) / 2] : List ℚ) ≠ []) ∧ ((1 : ℚ) / 10 ≤ 1 / 2) ∧ ((1 : ℚ) / 2 ≤ 1) ∧
      ((0 : ℚ) ≤ 3 / 10) ∧ ((3 : ℚ) / 10 ≤ 1) ∧
      adjust_lambda [1 / 2] [3 / 4] (1 / 20) (1 / 2) (3 / 10) =
        .ok (103 / 200, (((3 : ℚ) / 4 : ℚ) : WithTop ℚ)) ∧
      ((1 : ℚ) / 10 ≤ 103 / 200 ∧ (103 : ℚ) / 200 ≤ 1) :=
  ⟨by simp, by norm_num, by norm_num, by norm_num, by norm_num, adjust_lambda_standard_run,
    adjust_lambda_range [1 / 2] [3 / 4] (1 / 20) (1 / 2) (3 / 10) (103 / 200)
      (((3 : ℚ) / 4 : ℚ) : WithTop ℚ) (by simp) (by norm_num) (by norm_num) (by norm_num)
      (by norm_num) adjust_lambda_standard_run⟩

/-! ### Claim C3 -/

/-- C3: for every non-empty human batch, `adjust_lambda` computes the
observed false-positive rate as the fraction of human-batch probabilities
strictly greater than the calibrated threshold, sets
`step_size = min(0.1, |observed - target|)`, sets
`new_lambda = max(0.1, current - step)` when `observed > target` and
`new_lambda = min(1.0, current + step)` otherwise, and returns
`alpha * new_lambda + (1 - alpha) * current_lambda` (with the threshold). -/
theorem adjust_lambda_formula (human_preds ai_preds : List ℚ) (t c α : ℚ) (r : RocMetrics)
    (hne : human_preds ≠ [])
    (hr : get_roc_metrics human_preds ai_preds = .ok r) :
    adjust_lambda human_preds ai_preds t c α =
      (let observed_fp_rate : ℚ :=
        ((human_preds.countP (fun p => decide (r.threshold < (p : WithTop ℚ))) : ℕ) : ℚ) /
          (human_preds.length : ℚ)
      let step_size := min (1 / 10) |observed_fp_rate - t|
      let new_lambda :=
        if observed_fp_rate > t then max (1 / 10) (c - step_size)
        else min 1 (c + step_size)
      let smoothed_lambda := α * new_lambda + (1 - α) * c
      Except.ok (smoothed_lambda, r.threshold)) := by
  unfold adjust_lambda
  simp only [hr, if_neg (length_ne_zero_of_ne_nil hne)]

/-! ### Claim C10 -/

/-- C10 counterexample: with `current_lambda = 2` (outside `[0.1, 1]`) and
`alpha = 1`, one `adjust_lambda` round moves lambda from `2` to `1`, a step
of `1`, far more than `alpha * 0.1` — so the bounded-step property fails for
arbitrary `current_lambda`. -/
theorem adjust_lambda_step_bound_counterexample :
    adjust_lambda [1 / 2] [1 / 2] (1 / 20) 2 1 = .ok (1, (⊤ : WithTop ℚ)) ∧
      ¬ |(1 : ℚ) - 2| ≤ 1 * (1 / 10) := by
  constructor
  · norm_num [adjust_lambda, get_roc_metrics, aucE, fprOpt, tprOpt, fprList, tprList,
      fpsList, tpsList, fpsLast, tpsLast, thrList, rocKept, rocSweepRaw, distinctDesc,
      countGe, dropIntermediate, dropInner, isCorner, npTrapz, npDiff, npArgmaxQ, listMax,
      rocJList, optIdx, optThreshold, List.insertionSort, List.orderedInsert,
      List.dedup, List.pwFilter, List.countP, List.countP.go, List.cons_ne_nil,
      min_def, max_def, abs_of_nonneg, abs_of_nonpos]
  · rw [show |(1 : ℚ) - 2| = 1 by norm_num [abs]]
    norm_num

/-- C10 (amended): for every non-empty human batch, every `current_lambda`
*within the state domain `[0.1, 1]`*, and every `alpha` in `[0, 1]`, the
lambda returned by `adjust_lambda` differs from `current_lambda` by at most
`alpha * 0.1` in absolute value. -/
theorem adjust_lambda_step_bound (human_preds ai_preds : List ℚ) (t c α l : ℚ)
    (thr : WithTop ℚ) (hne : human_preds ≠ []) (hc1 : 1 / 10 ≤ c) (hc2 : c ≤ 1)
    (hα1 : 0 ≤ α) (hα2 : α ≤ 1)
    (hok : adjust_lambda human_preds ai_preds t c α = .ok (l, thr)) :
    |l - c| ≤ α * (1 / 10) := by
  cases hm : get_roc_metrics human_preds ai_preds with
  | error f =>
    rw [adjust_lambda_err human_preds ai_preds t c α f hm] at hok
    exact absurd hok (fun hh => Except.noConfusion hh)
  | ok r =>
    rw [adjust_lambda_eq human_preds ai_preds t c α r hne hm] at hok
    injection hok with h1
    injection h1 with hl hthr
    set fp := observedFpRate human_preds r.threshold with hfp
    obtain ⟨-, -, hmove⟩ := new_lambda_bounds fp t c hc1 hc2
    set nl := (if fp > t then max (1 / 10) (c - min (1 / 10) |fp - t|)
        else min 1 (c + min (1 / 10) |fp - t|)) with hnl
    have hdiff : l - c = α * (nl - c) := by rw [← hl]; ring
    rw [hdiff, abs_mul, abs_of_nonneg hα1]
    exact mul_le_mul_of_nonneg_left hmove hα1

theorem adjust_lambda_step_bound_witness :
    (([(1 : ℚ) / 2] : List ℚ) ≠ []) ∧ ((1 : ℚ) / 10 ≤ 1 / 2) ∧ ((1 : ℚ) / 2 ≤ 1) ∧
      ((0 : ℚ) ≤ 3 / 10) ∧ ((3 : ℚ) / 10 ≤ 1) ∧
      adjust_lambda [1 / 2] [3 / 4] (1 / 20) (1 / 2) (3 / 10) =
        .ok (103 / 200, (((3 : ℚ) / 4 : ℚ) : WithTop ℚ)) ∧
      |(103 : ℚ) / 200 - 1 / 2| ≤ (3 / 10) * (1 / 10) :=
  ⟨by simp, by norm_num, by norm_num, by norm_num, by norm_num, adjust_lambda_standard_run,
    adjust_lambda_step_bound [1 / 2] [3 / 4] (1 / 20) (1 / 2) (3 / 10) (103 / 200)
      (((3 : ℚ) / 4 : ℚ) : WithTop ℚ) (by simp) (by norm_num) (by norm_num) (by norm_num)
      (by norm_num) adjust_lambda_standard_run⟩

/-! ### Counterexamples for C1, C5, C6, C7 -/

/-- C1 counterexample: for `human_preds = [0.1, 0.5]`,
`ai_preds = [0.3, 0.7]`, the Youden statistic `tpr - fpr` attains its
maximum `1/2` at two kept thresholds, `0.7` and `0.3`; `get_roc_metrics`
returns `0.7` — the *highest* maximal-J threshold, not the lowest. -/
theorem youden_tiebreak_counterexample :
    rocJList [1 / 10, 1 / 2] [3 / 10, 7 / 10] = [0, 1 / 2, 0, 1 / 2, 0] ∧
    thrList [1 / 10, 1 / 2] [3 / 10, 7 / 10] =
      [⊤, (((7 : ℚ) / 10 : ℚ) : WithTop ℚ), (((1 : ℚ) / 2 : ℚ) : WithTop ℚ),
        (((3 : ℚ) / 10 : ℚ) : WithTop ℚ), (((1 : ℚ) / 10 : ℚ) : WithTop ℚ)] ∧
    get_roc_metrics [1 / 10, 1 / 2] [3 / 10, 7 / 10] =
      .ok ⟨some [0, 0, 1 / 2, 1 / 2, 1], some [0, 1 / 2, 1 / 2, 1, 1], some (3 / 4),
        (((7 : ℚ) / 10 : ℚ) : WithTop ℚ)⟩ ∧
    optThreshold [1 / 10, 1 / 2] [3 / 10, 7 / 10] ≠ (((3 : ℚ) / 10 : ℚ) : WithTop ℚ) := by
  norm_num [get_roc_metrics, aucE, fprOpt, tprOpt, fprList, tprList, fpsList, tpsList,
    fpsLast, tpsLast, thrList, rocKept, rocSweepRaw, distinctDesc, countGe,
    dropIntermediate, dropInner, isCorner, npTrapz, npDiff, npArgmaxQ, listMax,
    rocJList, optIdx, optThreshold, List.insertionSort, List.orderedInsert,
    List.dedup, List.pwFilter, List.countP, List.countP.go, List.cons_ne_nil,
    min_def, max_def, abs_of_nonneg, abs_of_nonpos]

/-- C5 counterexample: with an empty human batch and a non-empty ai batch,
`get_roc_metrics` does not fail at all (with `InsufficientData` or anything
else): it returns normally, with a NaN `fpr` array and NaN AUC. -/
theorem insufficient_data_counterexample :
    get_roc_metrics [] [1 / 2] = .ok ⟨none, some [0, 1], none, ⊤⟩ := by
  norm_num [get_roc_metrics, aucE, fprOpt, tprOpt, fprList, tprList, fpsList, tpsList,
    fpsLast, tpsLast, thrList, rocKept, rocSweepRaw, distinctDesc, countGe,
    dropIntermediate, dropInner, isCorner, npTrapz, npDiff, npArgmaxQ, listMax,
    rocJList, optIdx, optThreshold, List.insertionSort, List.orderedInsert,
    List.dedup, List.pwFilter, List.countP, List.countP.go, List.cons_ne_nil,
    min_def, max_def, abs_of_nonneg, abs_of_nonpos]

/-- C6 counterexample: with every score in both batches equal to `0.5`,
`get_roc_metrics` does not fail with `DegenerateScores` (or anything else);
it returns AUC `0.5` but the threshold is the infinite sentinel, *not* the
single score value `0.5`. -/
theorem degenerate_scores_counterexample :
    get_roc_metrics [1 / 2] [1 / 2] = .ok ⟨some [0, 1], some [0, 1], some (1 / 2), ⊤⟩ ∧
      (⊤ : WithTop ℚ) ≠ (((1 : ℚ) / 2 : ℚ) : WithTop ℚ) := by
  constructor
  · norm_num [get_roc_metrics, aucE, fprOpt, tprOpt, fprList, tprList, fpsList, tpsList,
      fpsLast, tpsLast, thrList, rocKept, rocSweepRaw, distinctDesc, countGe,
      dropIntermediate, dropInner, isCorner, npTrapz, npDiff, npArgmaxQ, listMax,
      rocJList, optIdx, optThreshold, List.insertionSort, List.orderedInsert,
      List.dedup, List.pwFilter, List.countP, List.countP.go, List.cons_ne_nil,
      min_def, max_def, abs_of_nonneg, abs_of_nonpos]
  · exact fun hh => Option.noConfusion hh

/-- C7 counterexample: `human_preds = [0.05]` (all < 0.1),
`ai_preds = [0.95]` (all > 0.9): the AUC is `1.0` as claimed, but the
optimal threshold returned is `0.95`, which is *not* strictly between `0.1`
and `0.9`. -/
theorem separated_threshold_counterexample :
    get_roc_metrics [1 / 20] [19 / 20] =
      .ok ⟨some [0, 0, 1], some [0, 1, 1], some 1, (((19 : ℚ) / 20 : ℚ) : WithTop ℚ)⟩ ∧
      ¬ ((19 : ℚ) / 20 < 9 / 10) := by
  constructor
  · norm_num [get_roc_metrics, aucE, fprOpt, tprOpt, fprList, tprList, fpsList, tpsList,
      fpsLast, tpsLast, thrList, rocKept, rocSweepRaw, distinctDesc, countGe,
      dropIntermediate, dropInner, isCorner, npTrapz, npDiff, npArgmaxQ, listMax,
      rocJList, optIdx, optThreshold, List.insertionSort, List.orderedInsert,
      List.dedup, List.pwFilter, List.countP, List.countP.go, List.cons_ne_nil,
      min_def, max_def, abs_of_nonneg, abs_of_nonpos]
  · norm_num

/-! ### Structural lemmas: `distinctDesc` -/

lemma getLastD_mem {α : Type} (l : List α) (d : α) (h : l ≠ []) : l.getLastD d ∈ l := by
  induction l generalizing d with
  | nil => exact absurd rfl h
  | cons x xs ih =>
    rw [List.getLastD_cons]
    cases xs with
    | nil => simp [List.getLastD]
    | cons y ys => exact List.mem_cons_of_mem x (ih x (by simp))

lemma getLastD_map {α β : Type} (f : α → β) (l : List α) (d : β) (e : α) (h : l ≠ []) :
    (l.map f).getLastD d = f (l.getLastD e) := by
  induction l generalizing d e with
  | nil => exact absurd rfl h
  | cons x xs ih =>
    cases xs with
    | nil => simp
    | cons y ys =>
      simpa only [List.map_cons, List.getLastD_cons] using ih (f x) x (by simp)

lemma pairwise_gt_getLastD_le {l : List ℚ} (hp : l.Pairwise (· > ·)) (d : ℚ) :
    ∀ x ∈ l, l.getLastD d ≤ x := by
  induction l generalizing d with
  | nil => intro x hx; cases hx
  | cons a as ih =>
    intro x hx
    rw [List.getLastD_cons]
    rcases List.mem_cons.mp hx with rfl | hx'
    · cases as with
      | nil => simp [List.getLastD]
      | cons b bs =>
        have hmem := getLastD_mem (b :: bs) x (by simp)
        exact le_of_lt ((List.pairwise_cons.mp hp).1 _ hmem)
    · cases as with
      | nil => cases hx'
      | cons b bs => exact ih (List.pairwise_cons.mp hp).2 a x hx'

lemma sorted_ge_distinctDesc (l : List ℚ) : List.Sorted (· ≥ ·) (distinctDesc l) :=
  List.Pairwise.sublist (List.dedup_sublist _) (List.sorted_insertionSort _ l)

lemma pairwise_gt_distinctDesc (l : List ℚ) : (distinctDesc l).Pairwise (· > ·) := by
  have h1 := sorted_ge_distinctDesc l
  have h2 : (distinctDesc l).Nodup := List.nodup_dedup _
  exact (h1.and h2).imp (fun hab => lt_of_le_of_ne hab.1.le (Ne.symm hab.2))

lemma mem_distinctDesc {l : List ℚ} {x : ℚ} : x ∈ distinctDesc l ↔ x ∈ l := by
  rw [distinctDesc, List.mem_dedup, List.mem_insertionSort]

lemma distinctDesc_ne_nil {l : List ℚ} (h : l ≠ []) : distinctDesc l ≠ [] := by
  cases l with
  | nil => exact absurd rfl h
  | cons x xs =>
    intro hnil
    have hx : x ∈ distinctDesc (x :: xs) := mem_distinctDesc.mpr (List.mem_cons_self x xs)
    rw [hnil] at hx
    cases hx

lemma distinctDesc_min_le {l : List ℚ} {x : ℚ} (hx : x ∈ l) (d : ℚ) :
    (distinctDesc l).getLastD d ≤ x :=
  pairwise_gt_getLastD_le (pairwise_gt_distinctDesc l) d x (mem_distinctDesc.mpr hx)

lemma distinctDesc_getLastD_mem {l : List ℚ} (h : l ≠ []) (d : ℚ) :
    (distinctDesc l).getLastD d ∈ l :=
  mem_distinctDesc.mp (getLastD_mem _ d (distinctDesc_ne_nil h))

lemma dedup_append_of_disjoint {α : Type} [DecidableEq α] {l₁ l₂ : List α}
    (h : ∀ x ∈ l₁, x ∉ l₂) : (l₁ ++ l₂).dedup = l₁.dedup ++ l₂.dedup := by
  induction l₁ with
  | nil => simp
  | cons a as ih =>
    have ha2 : a ∉ l₂ := h a (List.mem_cons_self _ _)
    have ih' := ih (fun x hx => h x (List.mem_cons_of_mem _ hx))
    by_cases haa : a ∈ as
    · rw [List.cons_append, List.dedup_cons_of_mem (List.mem_append.mpr (Or.inl haa)),
        List.dedup_cons_of_mem haa, ih']
    · have hnm : a ∉ as ++ l₂ := by
        intro hmem
        rcases List.mem_append.mp hmem with h1 | h2
        · exact haa h1
        · exact ha2 h2
      rw [List.cons_append, List.dedup_cons_of_not_mem hnm,
        List.dedup_cons_of_not_mem haa, ih', List.cons_append]

lemma insertionSort_append_of_sep {h a : List ℚ} (hsep : ∀ x ∈ h, ∀ y ∈ a, x < y) :
    (h ++ a).insertionSort (· ≥ ·) = a.insertionSort (· ≥ ·) ++ h.insertionSort (· ≥ ·) := by
  refine List.eq_of_perm_of_sorted ?_ (List.sorted_insertionSort _ _) ?_
  · exact (List.perm_insertionSort _ _).trans (List.perm_append_comm.trans
      ((List.perm_insertionSort _ _).symm.append (List.perm_insertionSort _ _).symm))
  · refine List.pairwise_append.mpr
      ⟨List.sorted_insertionSort _ _, List.sorted_insertionSort _ _, ?_⟩
    intro x hx y hy
    exact le_of_lt (hsep y ((List.mem_insertionSort _).mp hy) x ((List.mem_insertionSort _).mp hx))

lemma distinctDesc_append_of_sep {h a : List ℚ} (hsep : ∀ x ∈ h, ∀ y ∈ a, x < y) :
    distinctDesc (h ++ a) = distinctDesc a ++ distinctDesc h := by
  rw [distinctDesc, insertionSort_append_of_sep hsep, dedup_append_of_disjoint,
    distinctDesc, distinctDesc]
  intro x hx hx'
  have hxa : x ∈ a := (List.mem_insertionSort _).mp hx
  have hxh : x ∈ h := (List.mem_insertionSort _).mp hx'
  exact lt_irrefl x (hsep x hxh x hxa)

lemma dedup_const {α : Type} [DecidableEq α] {l : List α} {v : α} (hne : l ≠ [])
    (hall : ∀ x ∈ l, x = v) : l.dedup = [v] := by
  induction l with
  | nil => exact absurd rfl hne
  | cons a as ih =>
    have ha : a = v := hall a (List.mem_cons_self _ _)
    cases as with
    | nil => rw [List.dedup_cons_of_not_mem (List.not_mem_nil a), List.dedup_nil, ha]
    | cons b bs =>
      have hv : a ∈ b :: bs := by
        rw [ha, ← hall b (List.mem_cons_of_mem _ (List.mem_cons_self _ _))]
        exact List.mem_cons_self _ _
      rw [List.dedup_cons_of_mem hv,
        ih (by simp) (fun x hx => hall x (List.mem_cons_of_mem _ hx))]

lemma distinctDesc_const {l : List ℚ} {v : ℚ} (hne : l ≠ []) (hall : ∀ x ∈ l, x = v) :
    distinctDesc l = [v] := by
  apply dedup_const
  · intro hnil
    cases l with
    | nil => exact hne rfl
    | cons c cs =>
      have hc : c ∈ (c :: cs).insertionSort (· ≥ ·) :=
        (List.mem_insertionSort _).mpr (List.mem_cons_self _ _)
      rw [hnil] at hc
      cases hc
  · intro x hx
    exact hall x ((List.mem_insertionSort _).mp hx)

/-! ### Structural lemmas: `dropIntermediate` -/

lemma dropInner_sublist (p : RocPoint) (l : List RocPoint) : List.Sublist (dropInner p l) l := by
  induction l generalizing p with
  | nil => simp [dropInner]
  | cons q rest ih =>
    cases rest with
    | nil => simp [dropInner]
    | cons r rest' =>
      simp only [dropInner]
      by_cases hc : isCorner p q r
      · rw [if_pos hc]
        exact (ih q).cons₂ q
      · rw [if_neg hc]
        exact (ih q).cons q

lemma dropInner_ne_nil (p : RocPoint) (l : List RocPoint) (h : l ≠ []) :
    dropInner p l ≠ [] := by
  induction l generalizing p with
  | nil => exact absurd rfl h
  | cons q rest ih =>
    cases rest with
    | nil => simp [dropInner]
    | cons r rest' =>
      simp only [dropInner]
      by_cases hc : isCorner p q r
      · rw [if_pos hc]; simp
      · rw [if_neg hc]; exact ih q (by simp)

lemma getLastD_congr {α : Type} (l : List α) (d e : α) (h : l ≠ []) :
    l.getLastD d = l.getLastD e := by
  cases l with
  | nil => exact absurd rfl h
  | cons a as => rw [List.getLastD_cons, List.getLastD_cons]

lemma dropInner_getLastD (p d : RocPoint) (l : List RocPoint) (h : l ≠ []) :
    (dropInner p l).getLastD d = l.getLastD d := by
  induction l generalizing p d with
  | nil => exact absurd rfl h
  | cons q rest ih =>
    cases rest with
    | nil => simp [dropInner]
    | cons r rest' =>
      simp only [dropInner]
      by_cases hc : isCorner p q r
      · rw [if_pos hc, List.getLastD_cons, List.getLastD_cons]
        exact ih q q (by simp)
      · rw [if_neg hc, List.getLastD_cons,
          getLastD_congr (dropInner q (r :: rest')) d q (dropInner_ne_nil q _ (by simp))]
        exact ih q q (by simp)

lemma dropIntermediate_cons (p : RocPoint) (rest : List RocPoint) :
    dropIntermediate (p :: rest) = p :: dropInner p rest := by
  unfold dropIntermediate
  by_cases hlen : (p :: rest).length ≤ 2
  · rw [if_pos hlen]
    cases rest with
    | nil => rfl
    | cons q rest' =>
      cases rest' with
      | nil => rfl
      | cons r rest'' => simp at hlen
  · rw [if_neg hlen]

/-! ### Structural lemmas: `listMax` and `npArgmaxQ` -/

lemma listMax_two_cons (a b : ℚ) (bs : List ℚ) :
    listMax (a :: b :: bs) = max a (listMax (b :: bs)) := rfl

lemma npArgmaxQ_cons_of_ne_nil (a : ℚ) (l : List ℚ) (h : l ≠ []) :
    npArgmaxQ (a :: l) = if a < listMax l then npArgmaxQ l + 1 else 0 := by
  cases l with
  | nil => exact absurd rfl h
  | cons b bs => rfl

lemma le_listMax (l : List ℚ) : ∀ x ∈ l, x ≤ listMax l := by
  induction l with
  | nil => intro x hx; cases hx
  | cons a as ih =>
    intro x hx
    cases as with
    | nil =>
      rcases List.mem_cons.mp hx with rfl | h'
      · exact le_refl _
      · cases h'
    | cons b bs =>
      rw [listMax_two_cons]
      rcases List.mem_cons.mp hx with rfl | h'
      · exact le_max_left _ _
      · exact le_trans (ih x h') (le_max_right _ _)

lemma listMax_mem (l : List ℚ) (h : l ≠ []) : listMax l ∈ l := by
  induction l with
  | nil => exact absurd rfl h
  | cons a as ih =>
    cases as with
    | nil => exact List.mem_singleton.mpr rfl
    | cons b bs =>
      rw [listMax_two_cons]
      rcases le_total a (listMax (b :: bs)) with hle | hle
      · rw [max_eq_right hle]
        exact List.mem_cons_of_mem a (ih (by simp))
      · rw [max_eq_left hle]
        exact List.mem_cons_self _ _

lemma npArgmaxQ_lt_length (l : List ℚ) (h : l ≠ []) : npArgmaxQ l < l.length := by
  induction l with
  | nil => exact absurd rfl h
  | cons a as ih =>
    cases as with
    | nil => simp [npArgmaxQ]
    | cons b bs =>
      rw [npArgmaxQ_cons_of_ne_nil a _ (by simp)]
      by_cases hlt : a < listMax (b :: bs)
      · rw [if_pos hlt]
        exact Nat.succ_lt_succ (ih (by simp))
      · rw [if_neg hlt]
        simp

lemma getD_npArgmaxQ (l : List ℚ) (h : l ≠ []) : l.getD (npArgmaxQ l) 0 = listMax l := by
  induction l with
  | nil => exact absurd rfl h
  | cons a as ih =>
    cases as with
    | nil => rfl
    | cons b bs =>
      rw [npArgmaxQ_cons_of_ne_nil a _ (by simp), listMax_two_cons]
      by_cases hlt : a < listMax (b :: bs)
      · rw [if_pos hlt, List.getD_cons_succ, ih (by simp), max_eq_right (le_of_lt hlt)]
      · rw [if_neg hlt, List.getD_cons_zero, max_eq_left (not_lt.mp hlt)]

lemma getD_lt_of_lt_npArgmaxQ (l : List ℚ) : ∀ i, i < npArgmaxQ l → l.getD i 0 < listMax l := by
  induction l with
  | nil => intro i hi; simp [npArgmaxQ] at hi
  | cons a as ih =>
    intro i hi
    cases as with
    | nil => simp [npArgmaxQ] at hi
    | cons b bs =>
      rw [npArgmaxQ_cons_of_ne_nil a _ (by simp)] at hi
      by_cases hlt : a < listMax (b :: bs)
      · rw [if_pos hlt] at hi
        rw [listMax_two_cons, max_eq_right (le_of_lt hlt)]
        cases i with
        | zero => rw [List.getD_cons_zero]; exact hlt
        | succ j =>
          rw [List.getD_cons_succ]
          exact ih j (Nat.lt_of_succ_lt_succ hi)
      · rw [if_neg hlt] at hi
        exact absurd hi (Nat.not_lt_zero i)

lemma npArgmaxQ_append (l₁ l₂ : List ℚ) (v : ℚ) (h₁ : ∀ x ∈ l₁, x < v)
    (h₂ : ∀ x ∈ l₂, x < v) : npArgmaxQ (l₁ ++ v :: l₂) = l₁.length := by
  induction l₁ with
  | nil =>
    cases l₂ with
    | nil => rfl
    | cons c cs =>
      have hnl : ¬ (v < listMax (c :: cs)) :=
        not_lt.mpr (le_of_lt (h₂ _ (listMax_mem (c :: cs) (by simp))))
      rw [List.nil_append, npArgmaxQ_cons_of_ne_nil v _ (by simp), if_neg hnl, List.length_nil]
  | cons a l₁' ih =>
    have hv : v ≤ listMax (l₁' ++ v :: l₂) := le_listMax _ v (by simp)
    have ha : a < listMax (l₁' ++ v :: l₂) := lt_of_lt_of_le (h₁ a (by simp)) hv
    rw [List.cons_append, npArgmaxQ_cons_of_ne_nil a _ (by simp), if_pos ha,
      ih (fun x hx => h₁ x (List.mem_cons_of_mem _ hx)), List.length_cons]

/-! ### Structural lemmas: the ROC pipeline -/

lemma countGe_nonneg (l : List ℚ) (v : ℚ) : 0 ≤ countGe l v := by
  unfold countGe
  exact Nat.cast_nonneg _

lemma countGe_anti (l : List ℚ) {u v : ℚ} (huv : v ≤ u) : countGe l u ≤ countGe l v := by
  unfold countGe
  norm_cast
  apply List.countP_mono_left
  intro x hx hpx
  simp only [decide_eq_true_eq] at hpx ⊢
  exact le_trans huv hpx

lemma countGe_total (l : List ℚ) {v : ℚ} (hmin : ∀ x ∈ l, v ≤ x) :
    countGe l v = (l.length : ℚ) := by
  unfold countGe
  norm_cast
  exact List.countP_eq_length.mpr (fun x hx => decide_eq_true (hmin x hx))

lemma mem_rocSweepRaw {h a : List ℚ} {pt : RocPoint} (hpt : pt ∈ rocSweepRaw h a) :
    ∃ v, v ∈ distinctDesc (h ++ a) ∧ pt = (countGe h v, countGe a v, v) := by
  unfold rocSweepRaw at hpt
  rcases List.mem_map.mp hpt with ⟨v, hv, heq⟩
  exact ⟨v, hv, heq.symm⟩

lemma rocSweepRaw_ne_nil (h a : List ℚ) (hne : h ++ a ≠ []) : rocSweepRaw h a ≠ [] := by
  unfold rocSweepRaw
  intro hnil
  exact distinctDesc_ne_nil hne (List.map_eq_nil.mp hnil)

lemma rocKept_sublist (h a : List ℚ) : List.Sublist (rocKept h a) (rocSweepRaw h a) := by
  unfold rocKept
  cases hs : rocSweepRaw h a with
  | nil => simp [dropIntermediate]
  | cons p rest =>
    rw [dropIntermediate_cons]
    exact (dropInner_sublist p rest).cons₂ p

lemma rocKept_ne_nil (h a : List ℚ) (hne : h ++ a ≠ []) : rocKept h a ≠ [] := by
  unfold rocKept
  cases hs : rocSweepRaw h a with
  | nil => exact absurd hs (rocSweepRaw_ne_nil h a hne)
  | cons p rest =>
    rw [dropIntermediate_cons]
    simp

lemma dropIntermediate_getLastD (l : List RocPoint) (d : RocPoint) :
    (dropIntermediate l).getLastD d = l.getLastD d := by
  cases l with
  | nil => simp [dropIntermediate]
  | cons p rest =>
    rw [dropIntermediate_cons, List.getLastD_cons, List.getLastD_cons]
    cases rest with
    | nil => simp [dropInner]
    | cons q rest' => exact dropInner_getLastD p p _ (by simp)

lemma rocSweepRaw_getLastD (h a : List ℚ) (hne : h ++ a ≠ []) (d : RocPoint) :
    (rocSweepRaw h a).getLastD d =
      (countGe h ((distinctDesc (h ++ a)).getLastD 0),
       countGe a ((distinctDesc (h ++ a)).getLastD 0),
       (distinctDesc (h ++ a)).getLastD 0) := by
  unfold rocSweepRaw
  rw [getLastD_map _ _ d 0 (distinctDesc_ne_nil hne)]

lemma fpsLast_eq (h a : List ℚ) (hne : h ++ a ≠ []) : fpsLast h a = (h.length : ℚ) := by
  unfold fpsLast fpsList
  rw [List.getLastD_cons,
    getLastD_map _ _ 0 (0, 0, 0) (rocKept_ne_nil h a hne)]
  unfold rocKept
  rw [dropIntermediate_getLastD, rocSweepRaw_getLastD h a hne]
  exact countGe_total h (fun x hx => distinctDesc_min_le (List.mem_append.mpr (Or.inl hx)) 0)

lemma tpsLast_eq (h a : List ℚ) (hne : h ++ a ≠ []) : tpsLast h a = (a.length : ℚ) := by
  unfold tpsLast tpsList
  rw [List.getLastD_cons,
    getLastD_map _ _ 0 (0, 0, 0) (rocKept_ne_nil h a hne)]
  unfold rocKept
  rw [dropIntermediate_getLastD, rocSweepRaw_getLastD h a hne]
  exact countGe_total a (fun x hx => distinctDesc_min_le (List.mem_append.mpr (Or.inr hx)) 0)

lemma rocSweepRaw_fst_pairwise (h a : List ℚ) :
    ((rocSweepRaw h a).map (fun p => p.1)).Pairwise (· ≤ ·) := by
  unfold rocSweepRaw
  rw [List.map_map, List.pairwise_map]
  exact (pairwise_gt_distinctDesc _).imp (fun hgt => countGe_anti h (le_of_lt hgt))

lemma fpsList_pairwise_le (h a : List ℚ) : (fpsList h a).Pairwise (· ≤ ·) := by
  unfold fpsList
  rw [List.pairwise_cons]
  constructor
  · intro x hx
    rcases List.mem_map.mp hx with ⟨pt, hpt, rfl⟩
    rcases mem_rocSweepRaw ((rocKept_sublist h a).subset hpt) with ⟨v, -, rfl⟩
    exact countGe_nonneg h v
  · exact List.Pairwise.sublist ((rocKept_sublist h a).map _) (rocSweepRaw_fst_pairwise h a)

lemma div_le_div_same_nonneg {u v c : ℚ} (huv : u ≤ v) (hc : 0 ≤ c) : u / c ≤ v / c := by
  rcases eq_or_lt_of_le hc with hc0 | hc'
  · rw [← hc0, div_zero, div_zero]
  · exact (div_le_div_right hc').mpr huv

lemma fprList_pairwise_le (h a : List ℚ) : (fprList h a).Pairwise (· ≤ ·) := by
  unfold fprList
  rw [List.pairwise_map]
  have hc : 0 ≤ fpsLast h a := by
    unfold fpsLast fpsList
    rw [List.getLastD_cons]
    cases hk : rocKept h a with
    | nil => simp
    | cons p rest =>
      rw [getLastD_map _ _ 0 p (by simp)]
      have hmem : ((p :: rest).getLastD p) ∈ rocSweepRaw h a := by
        have h1 : ((p :: rest).getLastD p) ∈ rocKept h a := by
          rw [hk]
          exact getLastD_mem _ _ (by simp)
        exact (rocKept_sublist h a).subset h1
      rcases mem_rocSweepRaw hmem with ⟨v, -, heq⟩
      rw [heq]
      exact countGe_nonneg h v
  exact (fpsList_pairwise_le h a).imp (fun hle => div_le_div_same_nonneg hle hc)

lemma npDiff_not_neg {l : List ℚ} (hp : l.Pairwise (· ≤ ·)) :
    (npDiff l).any (fun d => decide (d < 0)) = false := by
  induction l with
  | nil => rfl
  | cons x rest ih =>
    cases rest with
    | nil => rfl
    | cons y rest' =>
      rw [show npDiff (x :: y :: rest') = (y - x) :: npDiff (y :: rest') from rfl,
        List.any_cons]
      have hxy : x ≤ y := (List.pairwise_cons.mp hp).1 y (by simp)
      rw [Bool.or_eq_false_iff]
      exact ⟨decide_eq_false (not_lt.mpr (by linarith)), ih (List.pairwise_cons.mp hp).2⟩

lemma fpsList_length_ge (h a : List ℚ) (hne : h ++ a ≠ []) :
    ¬ ((fpsList h a).length < 2) := by
  unfold fpsList
  cases hk : rocKept h a with
  | nil => exact absurd hk (rocKept_ne_nil h a hne)
  | cons p rest => simp

lemma aucE_ok (h a : List ℚ) (hne : h ++ a ≠ []) :
    ∃ v, aucE (fprOpt h a) (tprOpt h a) (fpsList h a).length = .ok v := by
  unfold aucE
  rw [if_neg (fpsList_length_ge h a hne)]
  cases hf : fprOpt h a with
  | none => cases tprOpt h a <;> exact ⟨none, rfl⟩
  | some xs =>
    cases ht : tprOpt h a with
    | none => exact ⟨none, rfl⟩
    | some ys =>
      have hxs : xs = fprList h a := by
        unfold fprOpt at hf
        by_cases h0 : fpsLast h a ≤ 0
        · rw [if_pos h0] at hf; cases hf
        · rw [if_neg h0] at hf; exact (Option.some.inj hf).symm
      have hmono : xs.Pairwise (· ≤ ·) := by
        rw [hxs]; exact fprList_pairwise_le h a
      refine ⟨some (npTrapz ys xs), ?_⟩
      simp [npDiff_not_neg hmono]

lemma get_roc_metrics_ok (h a : List ℚ) (hne : h ++ a ≠ []) :
    ∃ v, get_roc_metrics h a = .ok ⟨fprOpt h a, tprOpt h a, v, optThreshold h a⟩ := by
  obtain ⟨v, hv⟩ := aucE_ok h a hne
  refine ⟨v, ?_⟩
  unfold get_roc_metrics
  rw [if_neg hne, hv]

/-! ### Claim C5 -/

/-- C5 (amended): there is no `InsufficientData` error in the code.
`get_roc_metrics` raises (a NumPy `IndexError`) exactly when *both* batches
are empty; with exactly one empty batch it succeeds, returning NaN rates.
`adjust_lambda` fails exactly when the human batch is empty (with the
propagated `IndexError` when both are empty, else a `ZeroDivisionError` from
the false-positive-rate division). -/
theorem calibration_error_modes :
    (∀ human_preds ai_preds : List ℚ,
        (∃ e, get_roc_metrics human_preds ai_preds = .error e) ↔
          human_preds = [] ∧ ai_preds = []) ∧
    (∀ human_preds ai_preds : List ℚ, human_preds = [] → ai_preds = [] →
        get_roc_metrics human_preds ai_preds = .error .indexError) ∧
    (∀ (human_preds ai_preds : List ℚ) (t c α : ℚ),
        (∃ e, adjust_lambda human_preds ai_preds t c α = .error e) ↔ human_preds = []) ∧
    (∀ (ai_preds : List ℚ) (t c α : ℚ), ai_preds ≠ [] →
        adjust_lambda [] ai_preds t c α = .error .zeroDivisionError) := by
  have hroc_err : ∀ h' a' : List ℚ, h' = [] → a' = [] →
      get_roc_metrics h' a' = .error .indexError := by
    intro h' a' hh ha
    subst hh; subst ha
    unfold get_roc_metrics
    rw [if_pos (show ([] : List ℚ) ++ [] = [] from rfl)]
  have hzero : ∀ (a' : List ℚ) (t c α : ℚ), a' ≠ [] →
      adjust_lambda [] a' t c α = .error .zeroDivisionError := by
    intro a' t c α ha
    obtain ⟨v, hv⟩ := get_roc_metrics_ok [] a' (by simpa using ha)
    unfold adjust_lambda
    simp only [hv, List.length_nil, if_pos]
  refine ⟨?_, hroc_err, ?_, hzero⟩
  · intro h' a'
    constructor
    · rintro ⟨e, he⟩
      by_contra hnot
      have hne : h' ++ a' ≠ [] := fun hnil => hnot (List.append_eq_nil.mp hnil)
      obtain ⟨v, hv⟩ := get_roc_metrics_ok h' a' hne
      rw [hv] at he
      exact Except.noConfusion he
    · rintro ⟨hh, ha⟩
      exact ⟨.indexError, hroc_err h' a' hh ha⟩
  · intro h' a' t c α
    constructor
    · rintro ⟨e, he⟩
      by_contra hne
      have hne' : h' ++ a' ≠ [] := fun hnil => hne (List.append_eq_nil.mp hnil).1
      obtain ⟨v, hv⟩ := get_roc_metrics_ok h' a' hne'
      rw [adjust_lambda_eq h' a' t c α _ hne hv] at he
      exact Except.noConfusion he
    · intro hh
      subst hh
      by_cases ha : a' = []
      · subst ha
        exact ⟨.indexError,
          adjust_lambda_err [] [] t c α .indexError (hroc_err [] [] rfl rfl)⟩
      · exact ⟨.zeroDivisionError, hzero a' t c α ha⟩

theorem calibration_error_modes_witness :
    get_roc_metrics ([] : List ℚ) ([] : List ℚ) = .error .indexError ∧
      adjust_lambda [] [1 / 2] (1 / 20) (1 / 2) (3 / 10) = .error .zeroDivisionError :=
  ⟨calibration_error_modes.2.1 [] [] rfl rfl,
    calibration_error_modes.2.2.2 [1 / 2] (1 / 20) (1 / 2) (3 / 10) (by simp)⟩

/-! ### Claim C6 -/

/-- C6 (amended): when every score in both (non-empty) batches is one
identical value, `get_roc_metrics` does not fail with any `DegenerateScores`
error — no such error exists.  It succeeds, reporting the conventional
AUC of `0.5`, but the returned threshold is the infinite sentinel that
sklearn prepends to the threshold array, *not* the single score value. -/
theorem degenerate_scores_behaviour (human_preds ai_preds : List ℚ) (v : ℚ)
    (hh : human_preds ≠ []) (ha : ai_preds ≠ [])
    (hallh : ∀ x ∈ human_preds, x = v) (halla : ∀ y ∈ ai_preds, y = v) :
    get_roc_metrics human_preds ai_preds =
      .ok ⟨some [0, 1], some [0, 1], some (1 / 2), ⊤⟩ ∧
      (⊤ : WithTop ℚ) ≠ (v : WithTop ℚ) := by
  have hne : human_preds ++ ai_preds ≠ [] :=
    fun hnil => hh (List.append_eq_nil.mp hnil).1
  have hdd : distinctDesc (human_preds ++ ai_preds) = [v] := by
    apply distinctDesc_const hne
    intro x hx
    rcases List.mem_append.mp hx with h1 | h2
    exacts [hallh x h1, halla x h2]
  have hm : countGe human_preds v = (human_preds.length : ℚ) :=
    countGe_total _ (fun x hx => le_of_eq (hallh x hx).symm)
  have hn : countGe ai_preds v = (ai_preds.length : ℚ) :=
    countGe_total _ (fun x hx => le_of_eq (halla x hx).symm)
  have hm0 : (0 : ℚ) < (human_preds.length : ℚ) := by
    exact_mod_cast Nat.pos_of_ne_zero (length_ne_zero_of_ne_nil hh)
  have hn0 : (0 : ℚ) < (ai_preds.length : ℚ) := by
    exact_mod_cast Nat.pos_of_ne_zero (length_ne_zero_of_ne_nil ha)
  have hkept : rocKept human_preds ai_preds =
      [((human_preds.length : ℚ), (ai_preds.length : ℚ), v)] := by
    unfold rocKept rocSweepRaw
    rw [hdd, List.map_singleton, hm, hn]
    rfl
  have hfps : fpsList human_preds ai_preds = [0, (human_preds.length : ℚ)] := by
    unfold fpsList
    rw [hkept]
    rfl
  have htps : tpsList human_preds ai_preds = [0, (ai_preds.length : ℚ)] := by
    unfold tpsList
    rw [hkept]
    rfl
  have hfpsLast : fpsLast human_preds ai_preds = (human_preds.length : ℚ) := by
    unfold fpsLast
    rw [hfps]
    rfl
  have htpsLast : tpsLast human_preds ai_preds = (ai_preds.length : ℚ) := by
    unfold tpsLast
    rw [htps]
    rfl
  have hfprL : fprList human_preds ai_preds = [0, 1] := by
    unfold fprList
    rw [hfps, hfpsLast]
    simp [div_self (ne_of_gt hm0)]
  have htprL : tprList human_preds ai_preds = [0, 1] := by
    unfold tprList
    rw [htps, htpsLast]
    simp [div_self (ne_of_gt hn0)]
  have hfpr : fprOpt human_preds ai_preds = some [0, 1] := by
    unfold fprOpt
    rw [if_neg (not_le.mpr (by rw [hfpsLast]; exact hm0)), hfprL]
  have htpr : tprOpt human_preds ai_preds = some [0, 1] := by
    unfold tprOpt
    rw [if_neg (not_le.mpr (by rw [htpsLast]; exact hn0)), htprL]
  have hauc : aucE (some ([0, 1] : List ℚ)) (some ([0, 1] : List ℚ)) 2 =
      .ok (some (1 / 2)) := by
    norm_num [aucE, npDiff, npTrapz]
  have hthr : optThreshold human_preds ai_preds = ⊤ := by
    unfold optThreshold optIdx
    rw [if_neg (by
      rw [hfpsLast, htpsLast]
      push_neg
      exact ⟨hm0, hn0⟩)]
    have hJ : rocJList human_preds ai_preds = [0, 0] := by
      unfold rocJList
      rw [hfprL, htprL]
      norm_num
    rw [hJ]
    rfl
  refine ⟨?_, fun hcontr => Option.noConfusion hcontr⟩
  unfold get_roc_metrics
  rw [if_neg hne, hfpr, htpr, hfps]
  simp only [List.length_cons, List.length_singleton, List.length_nil]
  rw [hauc, hthr]

/-! ### Claim C1 -/

lemma rocJList_length (h a : List ℚ) :
    (rocJList h a).length = (rocKept h a).length + 1 ∧
    (thrList h a).length = (rocKept h a).length + 1 := by
  constructor
  · unfold rocJList tprList fprList tpsList fpsList
    rw [List.length_zipWith]
    simp
  · unfold thrList
    simp

lemma rocJList_ne_nil (h a : List ℚ) (hne : h ++ a ≠ []) : rocJList h a ≠ [] := by
  intro hnil
  have hlen := (rocJList_length h a).1
  rw [hnil] at hlen
  simp at hlen

lemma thrList_pairwise (h a : List ℚ) : (thrList h a).Pairwise (· > ·) := by
  unfold thrList
  rw [List.pairwise_cons]
  constructor
  · intro x hx
    rcases List.mem_map.mp hx with ⟨pt, hpt, rfl⟩
    exact WithTop.coe_lt_top _
  · have hsw : ((rocSweepRaw h a).map (fun p => p.2.2)) = distinctDesc (h ++ a) := by
      unfold rocSweepRaw
      rw [List.map_map]
      exact List.map_id _
    have hkept : ((rocKept h a).map (fun p => p.2.2)).Pairwise (· > ·) := by
      refine List.Pairwise.sublist ((rocKept_sublist h a).map _) ?_
      rw [hsw]
      exact pairwise_gt_distinctDesc _
    rw [List.pairwise_map] at hkept
    rw [List.pairwise_map]
    exact hkept.imp (fun hgt => WithTop.coe_lt_coe.mpr hgt)

lemma optIdx_eq (h a : List ℚ) (hh : h ≠ []) (ha : a ≠ []) :
    optIdx h a = npArgmaxQ (rocJList h a) := by
  have hne : h ++ a ≠ [] := fun hnil => hh (List.append_eq_nil.mp hnil).1
  unfold optIdx
  rw [if_neg (by
    push_neg
    rw [fpsLast_eq h a hne, tpsLast_eq h a hne]
    constructor
    · exact_mod_cast Nat.pos_of_ne_zero (length_ne_zero_of_ne_nil hh)
    · exact_mod_cast Nat.pos_of_ne_zero (length_ne_zero_of_ne_nil ha))]

/-- C1 (amended): the selection of the operating threshold is deterministic
and the selected index attains the maximal Youden statistic `J = tpr - fpr`;
but on ties the returned threshold is the *highest* threshold among the
maximal-J candidates, not the lowest: `np.argmax` returns the first maximal
index and the threshold array is strictly decreasing. -/
theorem youden_tiebreak_highest (human_preds ai_preds : List ℚ)
    (hh : human_preds ≠ []) (ha : ai_preds ≠ []) :
    (rocJList human_preds ai_preds).getD (optIdx human_preds ai_preds) 0 =
      listMax (rocJList human_preds ai_preds) ∧
    ∀ i, i < (rocJList human_preds ai_preds).length →
      (rocJList human_preds ai_preds).getD i 0 = listMax (rocJList human_preds ai_preds) →
      (thrList human_preds ai_preds).getD i ⊤ ≤ optThreshold human_preds ai_preds := by
  have hne : human_preds ++ ai_preds ≠ [] :=
    fun hnil => hh (List.append_eq_nil.mp hnil).1
  have hJne := rocJList_ne_nil _ _ hne
  have hidx := optIdx_eq _ _ hh ha
  constructor
  · rw [hidx]
    exact getD_npArgmaxQ _ hJne
  · intro i hi hJi
    unfold optThreshold
    rcases lt_trichotomy i (optIdx human_preds ai_preds) with hlt | heq | hgt
    · exfalso
      rw [hidx] at hlt
      exact absurd hJi (ne_of_lt (getD_lt_of_lt_npArgmaxQ _ i hlt))
    · rw [heq]
    · have hlen := rocJList_length human_preds ai_preds
      have hthrlen : i < (thrList human_preds ai_preds).length := by
        rw [hlen.2, ← hlen.1]
        exact hi
      have hoptlen : optIdx human_preds ai_preds < (thrList human_preds ai_preds).length :=
        lt_trans hgt hthrlen
      have hp := List.pairwise_iff_get.mp (thrList_pairwise human_preds ai_preds)
      have hcmp := hp ⟨optIdx human_preds ai_preds, hoptlen⟩ ⟨i, hthrlen⟩ hgt
      rw [List.getD_eq_get _ _ hthrlen, List.getD_eq_get _ _ hoptlen]
      exact le_of_lt hcmp

theorem youden_tiebreak_highest_witness :
    (([(1 : ℚ) / 10, 1 / 2] : List ℚ) ≠ []) ∧ (([(3 : ℚ) / 10, 7 / 10] : List ℚ) ≠ []) ∧
      ((rocJList [1 / 10, 1 / 2] [3 / 10, 7 / 10]).getD
          (optIdx [1 / 10, 1 / 2] [3 / 10, 7 / 10]) 0 =
        listMax (rocJList [1 / 10, 1 / 2] [3 / 10, 7 / 10]) ∧
      ∀ i, i < (rocJList [1 / 10, 1 / 2] [3 / 10, 7 / 10]).length →
        (rocJList [1 / 10, 1 / 2] [3 / 10, 7 / 10]).getD i 0 =
          listMax (rocJList [1 / 10, 1 / 2] [3 / 10, 7 / 10]) →
        (thrList [1 / 10, 1 / 2] [3 / 10, 7 / 10]).getD i ⊤ ≤
          optThreshold [1 / 10, 1 / 2] [3 / 10, 7 / 10]) :=
  ⟨by simp, by simp,
    youden_tiebreak_highest [1 / 10, 1 / 2] [3 / 10, 7 / 10] (by simp) (by simp)⟩

theorem degenerate_scores_behaviour_witness :
    (([(1 : ℚ) / 2] : List ℚ) ≠ []) ∧
      (get_roc_metrics [1 / 2] [1 / 2] =
          .ok ⟨some [0, 1], some [0, 1], some (1 / 2), ⊤⟩ ∧
        (⊤ : WithTop ℚ) ≠ (((1 : ℚ) / 2 : ℚ) : WithTop ℚ)) :=
  ⟨by simp,
    degenerate_scores_behaviour [1 / 2] [1 / 2] (1 / 2) (by simp) (by simp)
      (by intro x hx; simpa using hx) (by intro x hx; simpa using hx)⟩

/-- Concrete run of `get_roc_metrics` used by the C3 witness. -/
lemma roc_standard_run :
    get_roc_metrics [1 / 2] [3 / 4] =
      .ok ⟨some [0, 0, 1], some [0, 1, 1], some 1, (((3 : ℚ) / 4 : ℚ) : WithTop ℚ)⟩ := by
  norm_num [get_roc_metrics, aucE, fprOpt, tprOpt, fprList, tprList, fpsList, tpsList,
    fpsLast, tpsLast, thrList, rocKept, rocSweepRaw, distinctDesc, countGe,
    dropIntermediate, dropInner, isCorner, npTrapz, npDiff, npArgmaxQ, listMax,
    rocJList, optIdx, optThreshold, List.insertionSort, List.orderedInsert,
    List.dedup, List.pwFilter, List.countP, List.countP.go, List.cons_ne_nil,
    min_def, max_def, abs_of_nonneg, abs_of_nonpos]

theorem adjust_lambda_formula_witness :
    (([(1 : ℚ) / 2] : List ℚ) ≠ []) ∧
    get_roc_metrics [1 / 2] [3 / 4] =
      .ok ⟨some [0, 0, 1], some [0, 1, 1], some 1, (((3 : ℚ) / 4 : ℚ) : WithTop ℚ)⟩ ∧
    adjust_lambda [1 / 2] [3 / 4] (1 / 20) (1 / 2) (3 / 10) =
      (let observed_fp_rate : ℚ :=
        ((([(1 : ℚ) / 2] : List ℚ).countP
            (fun p => decide ((((3 : ℚ) / 4 : ℚ) : WithTop ℚ) < (p : WithTop ℚ))) : ℕ) : ℚ) /
          (([(1 : ℚ) / 2] : List ℚ).length : ℚ)
      let step_size := min (1 / 10) |observed_fp_rate - 1 / 20|
      let new_lambda :=
        if observed_fp_rate > 1 / 20 then max (1 / 10) (1 / 2 - step_size)
        else min 1 (1 / 2 + step_size)
      let smoothed_lambda := (3 / 10) * new_lambda + (1 - 3 / 10) * (1 / 2)
      Except.ok (smoothed_lambda, (((3 : ℚ) / 4 : ℚ) : WithTop ℚ))) :=
  ⟨by simp, roc_standard_run,
    adjust_lambda_formula [1 / 2] [3 / 4] (1 / 20) (1 / 2) (3 / 10)
      ⟨some [0, 0, 1], some [0, 1, 1], some 1, (((3 : ℚ) / 4 : ℚ) : WithTop ℚ)⟩
      (by simp) roc_standard_run⟩

/-! ### Claim C7: trapezoid and drop lemmas for perfectly separated scores -/

lemma getLastD_append {α : Type} (l₁ l₂ : List α) (d : α) (h : l₂ ≠ []) :
    (l₁ ++ l₂).getLastD d = l₂.getLastD d := by
  induction l₁ generalizing d with
  | nil => rfl
  | cons x xs ih =>
    rw [List.cons_append, List.getLastD_cons, ih x, getLastD_congr l₂ x d h]

lemma zipWith_map_same {α β : Type} (f g : α → ℚ) (op : ℚ → ℚ → β) (l : List α) :
    List.zipWith op (l.map f) (l.map g) = l.map (fun x => op (f x) (g x)) := by
  induction l with
  | nil => rfl
  | cons x xs ih => simp [ih]

lemma getD_append_length {α : Type} (l₁ : List α) (v : α) (l₂ : List α) (d : α) :
    (l₁ ++ v :: l₂).getD l₁.length d = v := by
  induction l₁ with
  | nil => rfl
  | cons x xs ih => simpa using ih

lemma isCorner_true_of (p q r : RocPoint) (hp : p.1 = 0) (hq : q.1 = 0) (hr : r.1 ≠ 0) :
    isCorner p q r = true := by
  unfold isCorner
  rw [Bool.or_eq_true]
  left
  rw [decide_eq_true_eq, hp, hq]
  simpa using hr

lemma dropInner_cons_of_ne_nil (p q : RocPoint) (l : List RocPoint) (h : l ≠ []) :
    dropInner p (q :: l) =
      if isCorner p q (l.headD q) then q :: dropInner q l else dropInner q l := by
  cases l with
  | nil => exact absurd rfl h
  | cons r rest' => rfl

/-- Constant-`y` trapezoid: the integral telescopes to `c * (xлast - xfirst)`. -/
lemma npTrapz_const (cst : ℚ) :
    ∀ (ys xs : List ℚ), ys.length = xs.length → (∀ y ∈ ys, y = cst) →
      npTrapz ys xs = cst * (xs.getLastD 0 - xs.headD 0) := by
  intro ys
  induction ys with
  | nil =>
    intro xs hlen _
    have : xs = [] := List.eq_nil_of_length_eq_zero hlen.symm
    subst this
    simp [npTrapz]
  | cons y0 ys' ih =>
    intro xs hlen hall
    cases xs with
    | nil => simp at hlen
    | cons x0 xs' =>
      cases ys' with
      | nil =>
        have : xs' = [] := by
          simp only [List.length_cons, List.length_nil] at hlen
          exact List.eq_nil_of_length_eq_zero (by omega)
        subst this
        simp [npTrapz]
      | cons y1 ys'' =>
        cases xs' with
        | nil => simp at hlen
        | cons x1 xs'' =>
          have h0 : y0 = cst := hall y0 (List.mem_cons_self _ _)
          have h1 : y1 = cst := hall y1 (List.mem_cons_of_mem _ (List.mem_cons_self _ _))
          have hrec := ih (x1 :: xs'') (by simpa using hlen)
            (fun y hy => hall y (List.mem_cons_of_mem _ hy))
          have hstep : npTrapz (y0 :: y1 :: ys'') (x0 :: x1 :: xs'') =
              (x1 - x0) * (y0 + y1) / 2 + npTrapz (y1 :: ys'') (x1 :: xs'') := rfl
          rw [hstep, hrec, h0, h1, List.getLastD_cons, List.getLastD_cons,
            getLastD_congr (x1 :: xs'') x0 x1 (by simp), List.getLastD_cons]
          simp only [List.headD_cons]
          ring

/-- Trapezoid under coordinatewise scaling of the two axes. -/
lemma npTrapz_div (aq bq : ℚ) (ha : aq ≠ 0) (hb : bq ≠ 0) :
    ∀ (ys xs : List ℚ),
      npTrapz (ys.map (fun y => y / bq)) (xs.map (fun x => x / aq)) =
        npTrapz ys xs / (aq * bq) := by
  intro ys
  induction ys with
  | nil => intro xs; simp [npTrapz]
  | cons y0 ys' ih =>
    intro xs
    cases ys' with
    | nil =>
      cases xs with
      | nil => simp [npTrapz]
      | cons x0 xs' =>
        cases xs' with
        | nil => simp [npTrapz]
        | cons x1 xs'' => simp [npTrapz]
    | cons y1 ys'' =>
      cases xs with
      | nil => simp [npTrapz]
      | cons x0 xs' =>
        cases xs' with
        | nil => simp [npTrapz]
        | cons x1 xs'' =>
          have hrec := ih (x1 :: xs'')
          simp only [List.map_cons] at hrec ⊢
          have hstep1 : npTrapz (y0 / bq :: y1 / bq :: ys''.map (fun y => y / bq))
              (x0 / aq :: x1 / aq :: xs''.map (fun x => x / aq)) =
              (x1 / aq - x0 / aq) * (y0 / bq + y1 / bq) / 2 +
              npTrapz (y1 / bq :: ys''.map (fun y => y / bq))
                (x1 / aq :: xs''.map (fun x => x / aq)) := rfl
          have hstep2 : npTrapz (y0 :: y1 :: ys'') (x0 :: x1 :: xs'') =
              (x1 - x0) * (y0 + y1) / 2 + npTrapz (y1 :: ys'') (x1 :: xs'') := rfl
          rw [hstep1, hstep2, hrec]
          field_simp
          ring

/-- Inside a perfectly separated sweep `A ++ c :: h₁ :: H'` (all of `A` at
zero false positives, `c` the corner, `h₁` with nonzero false positives),
the pruning keeps the corner `c`, keeps only points of `A` before it and
only points of `h₁ :: H'` after it. -/
lemma dropInner_split (c h₁ : RocPoint) (H' : List RocPoint)
    (hc1 : c.1 = 0) (hh₁ : h₁.1 ≠ 0) :
    ∀ (A : List RocPoint) (p : RocPoint), p.1 = 0 → (∀ x ∈ A, x.1 = 0) →
      ∃ K₁ K₂, dropInner p (A ++ c :: h₁ :: H') = K₁ ++ c :: K₂ ∧
        (∀ x ∈ K₁, x ∈ A) ∧ List.Sublist K₂ (h₁ :: H') := by
  intro A
  induction A with
  | nil =>
    intro p hp _
    rw [List.nil_append,
      dropInner_cons_of_ne_nil p c (h₁ :: H') (by simp)]
    rw [List.headD_cons, if_pos (isCorner_true_of p c h₁ hp hc1 hh₁)]
    exact ⟨[], dropInner c (h₁ :: H'), rfl, fun x hx => absurd hx (List.not_mem_nil x),
      dropInner_sublist c (h₁ :: H')⟩
  | cons a₀ A' ih =>
    intro p hp hA
    have ha₀ : a₀.1 = 0 := hA a₀ (List.mem_cons_self _ _)
    have hA' : ∀ x ∈ A', x.1 = 0 := fun x hx => hA x (List.mem_cons_of_mem _ hx)
    rw [List.cons_append, dropInner_cons_of_ne_nil p a₀ _ (by simp)]
    obtain ⟨K₁, K₂, hKeq, hK₁, hK₂⟩ := ih a₀ ha₀ hA'
    by_cases hcorn : isCorner p a₀ ((A' ++ c :: h₁ :: H').headD a₀) = true
    · rw [if_pos hcorn, hKeq]
      exact ⟨a₀ :: K₁, K₂, rfl,
        fun x hx => by
          rcases List.mem_cons.mp hx with rfl | hx'
          · exact List.mem_cons_self _ _
          · exact List.mem_cons_of_mem _ (hK₁ x hx'),
        hK₂⟩
    · rw [if_neg hcorn, hKeq]
      exact ⟨K₁, K₂, rfl, fun x hx => List.mem_cons_of_mem _ (hK₁ x hx), hK₂⟩

/-- Core C7 computation: over a perfectly separated sweep, the trapezoidal
integral of the kept points (with any zero-`fps` prefix point `p` prepended)
telescopes to `tps_total * fps_last`. -/
lemma trapz_perfect (nq : ℚ) (c h₁ : RocPoint) (H' : List RocPoint)
    (hc1 : c.1 = 0) (hc2 : c.2.1 = nq) (hh₁ : h₁.1 ≠ 0)
    (hHt : ∀ x ∈ h₁ :: H', x.2.1 = nq) :
    ∀ (A : List RocPoint) (p : RocPoint), p.1 = 0 → (∀ x ∈ A, x.1 = 0) →
      npTrapz ((p :: dropInner p (A ++ c :: h₁ :: H')).map (fun q => q.2.1))
              ((p :: dropInner p (A ++ c :: h₁ :: H')).map (fun q => q.1)) =
        nq * ((h₁ :: H').getLastD c).1 := by
  intro A
  induction A with
  | nil =>
    intro p hp _
    rw [List.nil_append, dropInner_cons_of_ne_nil p c (h₁ :: H') (by simp),
      List.headD_cons, if_pos (isCorner_true_of p c h₁ hp hc1 hh₁)]
    have hKsub := dropInner_sublist c (h₁ :: H')
    have hallt : ∀ y ∈ (c :: dropInner c (h₁ :: H')).map (fun q => q.2.1), y = nq := by
      intro y hy
      rcases List.mem_map.mp hy with ⟨pt, hpt, rfl⟩
      rcases List.mem_cons.mp hpt with rfl | hpt'
      · exact hc2
      · exact hHt pt (hKsub.subset hpt')
    have hstep : npTrapz ((p :: c :: dropInner c (h₁ :: H')).map (fun q => q.2.1))
        ((p :: c :: dropInner c (h₁ :: H')).map (fun q => q.1)) =
        (c.1 - p.1) * (p.2.1 + c.2.1) / 2 +
          npTrapz ((c :: dropInner c (h₁ :: H')).map (fun q => q.2.1))
            ((c :: dropInner c (h₁ :: H')).map (fun q => q.1)) := rfl
    have hconst := npTrapz_const nq ((c :: dropInner c (h₁ :: H')).map (fun q => q.2.1))
      ((c :: dropInner c (h₁ :: H')).map (fun q => q.1)) (by simp) hallt
    have hhead : ((c :: dropInner c (h₁ :: H')).map (fun q => q.1)).headD 0 = c.1 := by simp
    have hlastm : ((c :: dropInner c (h₁ :: H')).map (fun q => q.1)).getLastD 0 =
        ((c :: dropInner c (h₁ :: H')).getLastD c).1 := by
      rw [getLastD_map (fun q => q.1) _ 0 c (by simp)]
    have hlast2 : (c :: dropInner c (h₁ :: H')).getLastD c = (h₁ :: H').getLastD c := by
      rw [List.getLastD_cons, dropInner_getLastD c c _ (by simp)]
    rw [hstep, hconst, hhead, hlastm, hlast2, hc1, hp]
    ring
  | cons a₀ A' ih =>
    intro p hp hA
    have ha₀ : a₀.1 = 0 := hA a₀ (List.mem_cons_self _ _)
    have hA' : ∀ x ∈ A', x.1 = 0 := fun x hx => hA x (List.mem_cons_of_mem _ hx)
    rw [List.cons_append, dropInner_cons_of_ne_nil p a₀ _ (by simp)]
    have hrec := ih a₀ ha₀ hA'
    by_cases hcorn : isCorner p a₀ ((A' ++ c :: h₁ :: H').headD a₀) = true
    · rw [if_pos hcorn]
      have hstep : npTrapz ((p :: a₀ :: dropInner a₀ (A' ++ c :: h₁ :: H')).map (fun q => q.2.1))
          ((p :: a₀ :: dropInner a₀ (A' ++ c :: h₁ :: H')).map (fun q => q.1)) =
          (a₀.1 - p.1) * (p.2.1 + a₀.2.1) / 2 +
            npTrapz ((a₀ :: dropInner a₀ (A' ++ c :: h₁ :: H')).map (fun q => q.2.1))
              ((a₀ :: dropInner a₀ (A' ++ c :: h₁ :: H')).map (fun q => q.1)) := rfl
      rw [hstep, hrec, ha₀, hp]
      ring
    · rw [if_neg hcorn]
      obtain ⟨K₁, K₂, hKeq, hK₁, hK₂⟩ := dropInner_split c h₁ H' hc1 hh₁ A' a₀ ha₀ hA'
      cases hKK : dropInner a₀ (A' ++ c :: h₁ :: H') with
      | nil =>
        rw [hKK] at hKeq
        simp at hKeq
      | cons k₀ Krest =>
        rw [hKK] at hKeq hrec
        have hk₀ : k₀.1 = 0 := by
          cases K₁ with
          | nil =>
            have hk : k₀ = c := by simpa using congrArg (fun l => l.headD k₀) hKeq
            rw [hk]; exact hc1
          | cons k K₁' =>
            have hk : k₀ = k := by simpa using congrArg (fun l => l.headD k₀) hKeq
            rw [hk]
            exact hA' k (hK₁ k (List.mem_cons_self _ _))
        have hstep_p : npTrapz ((p :: k₀ :: Krest).map (fun q => q.2.1))
            ((p :: k₀ :: Krest).map (fun q => q.1)) =
            (k₀.1 - p.1) * (p.2.1 + k₀.2.1) / 2 +
              npTrapz ((k₀ :: Krest).map (fun q => q.2.1))
                ((k₀ :: Krest).map (fun q => q.1)) := rfl
        have hstep_a : npTrapz ((a₀ :: k₀ :: Krest).map (fun q => q.2.1))
            ((a₀ :: k₀ :: Krest).map (fun q => q.1)) =
            (k₀.1 - a₀.1) * (a₀.2.1 + k₀.2.1) / 2 +
              npTrapz ((k₀ :: Krest).map (fun q => q.2.1))
                ((k₀ :: Krest).map (fun q => q.1)) := rfl
        rw [hstep_a, hk₀, ha₀, sub_self, zero_mul, zero_div, zero_add] at hrec
        rw [hstep_p, hk₀, hp, sub_self, zero_mul, zero_div, zero_add]
        exact hrec

lemma pairwise_gt_dropLast_gt {l : List ℚ} (hp : l.Pairwise (· > ·)) (d : ℚ) :
    ∀ x ∈ l.dropLast, l.getLastD d < x := by
  induction l generalizing d with
  | nil => intro x hx; simp at hx
  | cons a as ih =>
    intro x hx
    cases as with
    | nil => simp at hx
    | cons b bs =>
      rw [List.getLastD_cons]
      have hx' : x ∈ a :: (b :: bs).dropLast := by
        rw [show (a :: b :: bs).dropLast = a :: (b :: bs).dropLast from rfl] at hx
        exact hx
      rcases List.mem_cons.mp hx' with rfl | hx''
      · exact (List.pairwise_cons.mp hp).1 _ (getLastD_mem (b :: bs) x (by simp))
      · exact ih (List.pairwise_cons.mp hp).2 a x hx''

lemma dropLast_append_getLastD {α : Type} (l : List α) (d : α) (h : l ≠ []) :
    l.dropLast ++ [l.getLastD d] = l := by
  induction l generalizing d with
  | nil => exact absurd rfl h
  | cons x xs ih =>
    cases xs with
    | nil => rfl
    | cons y ys =>
      rw [List.getLastD_cons, show (x :: y :: ys).dropLast = x :: (y :: ys).dropLast from rfl,
        List.cons_append, ih x (by simp)]

lemma countGe_eq_zero (l : List ℚ) {v : ℚ} (hv : ∀ x ∈ l, x < v) : countGe l v = 0 := by
  unfold countGe
  norm_cast
  rw [List.countP_eq_zero]
  intro x hx
  simp only [decide_eq_true_eq]
  exact not_le.mpr (hv x hx)

lemma countGe_pos (l : List ℚ) {v : ℚ} (hv : v ∈ l) : 0 < countGe l v := by
  unfold countGe
  have : 0 < l.countP (fun s => decide (v ≤ s)) :=
    List.countP_pos.mpr ⟨v, hv, by simp⟩
  exact_mod_cast this

lemma countGe_le_length (l : List ℚ) (v : ℚ) : countGe l v ≤ (l.length : ℚ) := by
  unfold countGe
  exact_mod_cast List.countP_le_length _

lemma countGe_lt_total (l : List ℚ) {v w : ℚ} (hw : w ∈ l) (hvw : w < v) :
    countGe l v < (l.length : ℚ) := by
  unfold countGe
  have h1 : l.countP (fun s => decide (v ≤ s)) ≤ l.length := List.countP_le_length _
  have h2 : l.countP (fun s => decide (v ≤ s)) ≠ l.length := by
    intro heq
    have hmem := List.countP_eq_length.mp heq w hw
    simp only [decide_eq_true_eq] at hmem
    exact absurd hmem (not_le.mpr hvw)
  exact_mod_cast lt_of_le_of_ne h1 h2

/-- Combined structure of the kept list over a perfectly separated sweep:
the corner `c` survives the pruning with only zero-`fps` points before it
and only full-`tps` points after it, and the prepended trapezoid evaluates
to `tps_total * fps_last`. -/
lemma kept_structure (c h₁ : RocPoint) (H' : List RocPoint)
    (hc1 : c.1 = 0) (hh₁ : h₁.1 ≠ 0)
    (nq : ℚ) (hc2 : c.2.1 = nq) (hHt : ∀ x ∈ h₁ :: H', x.2.1 = nq) :
    ∀ (A : List RocPoint), (∀ x ∈ A, x.1 = 0) →
      (∃ K₁ K₂, dropIntermediate (A ++ c :: h₁ :: H') = K₁ ++ c :: K₂ ∧
        (∀ x ∈ K₁, x ∈ A) ∧ List.Sublist K₂ (h₁ :: H')) ∧
      npTrapz
        ((((0 : ℚ), (0 : ℚ), (0 : ℚ)) :: dropIntermediate (A ++ c :: h₁ :: H')).map
          (fun q => q.2.1))
        ((((0 : ℚ), (0 : ℚ), (0 : ℚ)) :: dropIntermediate (A ++ c :: h₁ :: H')).map
          (fun q => q.1)) =
        nq * ((h₁ :: H').getLastD c).1 := by
  intro A hA
  cases A with
  | nil =>
    rw [List.nil_append, dropIntermediate_cons]
    constructor
    · exact ⟨[], dropInner c (h₁ :: H'), rfl, by simp, dropInner_sublist _ _⟩
    · have heq : dropInner ((0 : ℚ), (0 : ℚ), (0 : ℚ)) (c :: h₁ :: H') =
          c :: dropInner c (h₁ :: H') := by
        rw [dropInner_cons_of_ne_nil _ c _ (by simp), List.headD_cons,
          if_pos (isCorner_true_of _ c h₁ rfl hc1 hh₁)]
      rw [← heq]
      exact trapz_perfect nq c h₁ H' hc1 hc2 hh₁ hHt [] _ rfl (by simp)
  | cons a₀ A' =>
    have ha₀ : a₀.1 = 0 := hA a₀ (List.mem_cons_self _ _)
    have hA' : ∀ x ∈ A', x.1 = 0 := fun x hx => hA x (List.mem_cons_of_mem _ hx)
    rw [List.cons_append, dropIntermediate_cons]
    obtain ⟨K₁, K₂, hKeq, hK₁, hK₂⟩ := dropInner_split c h₁ H' hc1 hh₁ A' a₀ ha₀ hA'
    constructor
    · refine ⟨a₀ :: K₁, K₂, by rw [hKeq, List.cons_append], ?_, hK₂⟩
      intro x hx
      rcases List.mem_cons.mp hx with rfl | hx'
      · exact List.mem_cons_self _ _
      · exact List.mem_cons_of_mem _ (hK₁ x hx')
    · have hstep : npTrapz
          ((((0 : ℚ), (0 : ℚ), (0 : ℚ)) :: a₀ :: dropInner a₀ (A' ++ c :: h₁ :: H')).map
            (fun q => q.2.1))
          ((((0 : ℚ), (0 : ℚ), (0 : ℚ)) :: a₀ :: dropInner a₀ (A' ++ c :: h₁ :: H')).map
            (fun q => q.1)) =
          (a₀.1 - 0) * (0 + a₀.2.1) / 2 +
            npTrapz ((a₀ :: dropInner a₀ (A' ++ c :: h₁ :: H')).map (fun q => q.2.1))
              ((a₀ :: dropInner a₀ (A' ++ c :: h₁ :: H')).map (fun q => q.1)) := rfl
    
      rw [hstep, trapz_perfect nq c h₁ H' hc1 hc2 hh₁ hHt A' a₀ ha₀ hA', ha₀]
      ring

lemma aucE_value (h a : List ℚ) (hne : h ++ a ≠ []) (hm : ¬ fpsLast h a ≤ 0)
    (hn : ¬ tpsLast h a ≤ 0) :
    aucE (fprOpt h a) (tprOpt h a) (fpsList h a).length =
      .ok (some (npTrapz (tprList h a) (fprList h a))) := by
  unfold aucE fprOpt tprOpt
  rw [if_neg (fpsList_length_ge h a hne), if_neg hm, if_neg hn]
  simp [npDiff_not_neg (fprList_pairwise_le h a)]

/-- C7 (amended): when all human scores are strictly below `0.1` and all ai
scores strictly above `0.9`, `get_roc_metrics` returns AUC `1.0` as claimed,
but the optimal threshold is one of the ai-batch scores (the smallest),
hence strictly *above* `0.9` — not strictly between `0.1` and `0.9`. -/
theorem separated_scores_auc_threshold (human_preds ai_preds : List ℚ)
    (hh : human_preds ≠ []) (ha : ai_preds ≠ [])
    (hsh : ∀ x ∈ human_preds, x < 1 / 10) (hsa : ∀ y ∈ ai_preds, 9 / 10 < y) :
    get_roc_metrics human_preds ai_preds =
      .ok ⟨fprOpt human_preds ai_preds, tprOpt human_preds ai_preds, some 1,
        optThreshold human_preds ai_preds⟩ ∧
    ∃ v, v ∈ ai_preds ∧ 9 / 10 < v ∧
      optThreshold human_preds ai_preds = ((v : ℚ) : WithTop ℚ) := by
  have hne : human_preds ++ ai_preds ≠ [] :=
    fun hnil => hh (List.append_eq_nil.mp hnil).1
  have hm0 : (0 : ℚ) < (human_preds.length : ℚ) := by
    exact_mod_cast Nat.pos_of_ne_zero (length_ne_zero_of_ne_nil hh)
  have hn0 : (0 : ℚ) < (ai_preds.length : ℚ) := by
    exact_mod_cast Nat.pos_of_ne_zero (length_ne_zero_of_ne_nil ha)
  have hsep : ∀ x ∈ human_preds, ∀ y ∈ ai_preds, x < y := by
    intro x hx y hy
    calc x < 1 / 10 := hsh x hx
    _ < 9 / 10 := by norm_num
    _ < y := hsa y hy
  have hdd : distinctDesc (human_preds ++ ai_preds) =
      distinctDesc ai_preds ++ distinctDesc human_preds := distinctDesc_append_of_sep hsep
  set vmin := (distinctDesc ai_preds).getLastD 0 with hvmin
  have hvmin_mem : vmin ∈ ai_preds := distinctDesc_getLastD_mem ha 0
  have hvmin_gt : 9 / 10 < vmin := hsa vmin hvmin_mem
  have hddA_split : (distinctDesc ai_preds).dropLast ++ [vmin] = distinctDesc ai_preds :=
    dropLast_append_getLastD _ 0 (distinctDesc_ne_nil ha)
  have hddH_ne : distinctDesc human_preds ≠ [] := distinctDesc_ne_nil hh
  have hcnt_h_zero : ∀ v ∈ distinctDesc ai_preds, countGe human_preds v = 0 := by
    intro v hv
    have hv' : 9 / 10 < v := hsa v (mem_distinctDesc.mp hv)
    exact countGe_eq_zero human_preds
      (fun x hx => lt_trans (hsh x hx) (lt_trans (by norm_num) hv'))
  have hcnt_a_total : ∀ v ∈ distinctDesc human_preds,
      countGe ai_preds v = (ai_preds.length : ℚ) := by
    intro v hv
    have hv' : v < 1 / 10 := hsh v (mem_distinctDesc.mp hv)
    exact countGe_total ai_preds
      (fun y hy => le_of_lt (lt_trans hv' (lt_trans (by norm_num) (hsa y hy))))
  have hc_f : countGe human_preds vmin = 0 :=
    hcnt_h_zero vmin (getLastD_mem _ 0 (distinctDesc_ne_nil ha))
  have hc_t : countGe ai_preds vmin = (ai_preds.length : ℚ) :=
    countGe_total ai_preds (fun y hy => distinctDesc_min_le hy 0)
  set cnt : ℚ → RocPoint :=
    fun v => (countGe human_preds v, countGe ai_preds v, v) with hcntdef
  have hswp : rocSweepRaw human_preds ai_preds =
      ((distinctDesc ai_preds).dropLast).map cnt ++
        cnt vmin :: (distinctDesc human_preds).map cnt := by
    unfold rocSweepRaw
    rw [hdd]
    conv_lhs => rw [← hddA_split]
    rw [List.map_append, List.map_append, List.map_singleton,
      List.append_assoc, List.singleton_append]
  cases hH : (distinctDesc human_preds).map cnt with
  | nil => exact absurd (List.map_eq_nil.mp hH) hddH_ne
  | cons h₁ H' =>
    have hHt : ∀ x ∈ h₁ :: H', x.2.1 = (ai_preds.length : ℚ) := by
      intro x hx
      rw [← hH] at hx
      rcases List.mem_map.mp hx with ⟨v, hv, rfl⟩
      exact hcnt_a_total v hv
    have hh₁f : h₁.1 ≠ 0 := by
      have hx : h₁ ∈ (distinctDesc human_preds).map cnt := by
        rw [hH]; exact List.mem_cons_self _ _
      rcases List.mem_map.mp hx with ⟨v, hv, heq⟩
      rw [← heq]
      exact ne_of_gt (countGe_pos human_preds (mem_distinctDesc.mp hv))
    have hAf : ∀ x ∈ ((distinctDesc ai_preds).dropLast).map cnt, x.1 = 0 := by
      intro x hx
      rcases List.mem_map.mp hx with ⟨v, hv, rfl⟩
      exact hcnt_h_zero v ((List.dropLast_sublist _).subset hv)
    obtain ⟨⟨K₁, K₂, hKeq, hK₁, hK₂⟩, htrapz⟩ :=
      kept_structure (cnt vmin) h₁ H' hc_f hh₁f (ai_preds.length : ℚ) hc_t hHt
        (((distinctDesc ai_preds).dropLast).map cnt) hAf
    have hkept_eq : rocKept human_preds ai_preds = K₁ ++ cnt vmin :: K₂ := by
      unfold rocKept
      rw [hswp, hH]
      exact hKeq
    have hlastF : ((h₁ :: H').getLastD (cnt vmin)).1 = (human_preds.length : ℚ) := by
      rw [← hH, getLastD_map cnt _ (cnt vmin) 0 hddH_ne]
      exact countGe_total human_preds (fun x hx => distinctDesc_min_le hx 0)
    have hfpsL : fpsList human_preds ai_preds =
        (((0 : ℚ), (0 : ℚ), (0 : ℚ)) :: rocKept human_preds ai_preds).map
          (fun q => q.1) := rfl
    have htpsL : tpsList human_preds ai_preds =
        (((0 : ℚ), (0 : ℚ), (0 : ℚ)) :: rocKept human_preds ai_preds).map
          (fun q => q.2.1) := rfl
    have hfpsLast := fpsLast_eq human_preds ai_preds hne
    have htpsLast := tpsLast_eq human_preds ai_preds hne
    have htrapz' : npTrapz (tprList human_preds ai_preds) (fprList human_preds ai_preds)
        = 1 := by
      unfold tprList fprList
      rw [hfpsLast, htpsLast, hfpsL, htpsL,
        npTrapz_div (human_preds.length : ℚ) (ai_preds.length : ℚ)
          (ne_of_gt hm0) (ne_of_gt hn0)]
      unfold rocKept
      rw [hswp, hH, htrapz, hlastF]
      rw [div_eq_one_iff_eq (by positivity)]
      ring
    have hm_le : ¬ fpsLast human_preds ai_preds ≤ 0 := by
      rw [hfpsLast]; exact not_le.mpr hm0
    have hn_le : ¬ tpsLast human_preds ai_preds ≤ 0 := by
      rw [htpsLast]; exact not_le.mpr hn0
    have hauc := aucE_value human_preds ai_preds hne hm_le hn_le
    rw [htrapz'] at hauc
    have hrec : get_roc_metrics human_preds ai_preds =
        .ok ⟨fprOpt human_preds ai_preds, tprOpt human_preds ai_preds, some 1,
          optThreshold human_preds ai_preds⟩ := by
      unfold get_roc_metrics
      rw [if_neg hne, hauc]
    have hJmap : rocJList human_preds ai_preds =
        (((0 : ℚ), (0 : ℚ), (0 : ℚ)) :: rocKept human_preds ai_preds).map
          (fun pt => pt.2.1 / (ai_preds.length : ℚ) - pt.1 / (human_preds.length : ℚ)) := by
      unfold rocJList tprList fprList
      rw [hfpsLast, htpsLast, hfpsL, htpsL, List.map_map, List.map_map, zipWith_map_same]
      rfl
    have hJsplit : rocJList human_preds ai_preds =
        ((((0 : ℚ), (0 : ℚ), (0 : ℚ)) :: K₁).map
            (fun pt => pt.2.1 / (ai_preds.length : ℚ) - pt.1 / (human_preds.length : ℚ))) ++
          (1 : ℚ) :: K₂.map
            (fun pt => pt.2.1 / (ai_preds.length : ℚ) - pt.1 / (human_preds.length : ℚ)) := by
      rw [hJmap, hkept_eq]
      rw [show ((((0 : ℚ), (0 : ℚ), (0 : ℚ)) : RocPoint) :: (K₁ ++ cnt vmin :: K₂)) =
        ((((0 : ℚ), (0 : ℚ), (0 : ℚ)) : RocPoint) :: K₁) ++ cnt vmin :: K₂ from rfl]
      rw [List.map_append]
      congr 1
      rw [List.map_cons]
      congr 1
      show countGe ai_preds vmin / (ai_preds.length : ℚ) -
        countGe human_preds vmin / (human_preds.length : ℚ) = 1
      rw [hc_f, hc_t, zero_div, sub_zero, div_self (ne_of_gt hn0)]
    have hbound1 : ∀ x ∈ (((0 : ℚ), (0 : ℚ), (0 : ℚ)) :: K₁).map
        (fun pt => pt.2.1 / (ai_preds.length : ℚ) - pt.1 / (human_preds.length : ℚ)),
        x < 1 := by
      intro x hx
      rcases List.mem_map.mp hx with ⟨pt, hpt, rfl⟩
      rcases List.mem_cons.mp hpt with rfl | hpt'
      · norm_num
      · rcases List.mem_map.mp (hK₁ pt hpt') with ⟨v, hv, rfl⟩
        show countGe ai_preds v / (ai_preds.length : ℚ) -
          countGe human_preds v / (human_preds.length : ℚ) < 1
        rw [hcnt_h_zero v ((List.dropLast_sublist _).subset hv), zero_div, sub_zero]
        rw [div_lt_one hn0]
        exact countGe_lt_total ai_preds hvmin_mem
          (pairwise_gt_dropLast_gt (pairwise_gt_distinctDesc ai_preds) 0 v hv)
    have hbound2 : ∀ x ∈ K₂.map
        (fun pt => pt.2.1 / (ai_preds.length : ℚ) - pt.1 / (human_preds.length : ℚ)),
        x < 1 := by
      intro x hx
      rcases List.mem_map.mp hx with ⟨pt, hpt, rfl⟩
      have hptH : pt ∈ (distinctDesc human_preds).map cnt := by
        rw [hH]
        exact hK₂.subset hpt
      rcases List.mem_map.mp hptH with ⟨v, hv, rfl⟩
      show countGe ai_preds v / (ai_preds.length : ℚ) -
        countGe human_preds v / (human_preds.length : ℚ) < 1
      rw [hcnt_a_total v hv, div_self (ne_of_gt hn0)]
      have hpos : 0 < countGe human_preds v / (human_preds.length : ℚ) :=
        div_pos (countGe_pos human_preds (mem_distinctDesc.mp hv)) hm0
      linarith
    have hidx : optIdx human_preds ai_preds = K₁.length + 1 := by
      rw [optIdx_eq _ _ hh ha, hJsplit, npArgmaxQ_append _ _ 1 hbound1 hbound2]
      simp
    have hthrsplit : thrList human_preds ai_preds =
        (⊤ :: K₁.map (fun p => (p.2.2 : WithTop ℚ))) ++
          ((vmin : ℚ) : WithTop ℚ) :: K₂.map (fun p => (p.2.2 : WithTop ℚ)) := by
      unfold thrList
      rw [hkept_eq, List.map_append, List.map_cons, List.cons_append]
    have hthr : optThreshold human_preds ai_preds = ((vmin : ℚ) : WithTop ℚ) := by
      unfold optThreshold
      rw [hidx, hthrsplit]
      have hlen1 : (⊤ :: K₁.map (fun p => ((p.2.2 : ℚ) : WithTop ℚ))).length =
          K₁.length + 1 := by simp
      rw [← hlen1]
      exact getD_append_length _ _ _ _
    exact ⟨hrec, vmin, hvmin_mem, hvmin_gt, hthr⟩

theorem separated_scores_auc_threshold_witness :
    (([(1 : ℚ) / 20] : List ℚ) ≠ []) ∧ (([(19 : ℚ) / 20] : List ℚ) ≠ []) ∧
      (get_roc_metrics [1 / 20] [19 / 20] =
        .ok ⟨fprOpt [1 / 20] [19 / 20], tprOpt [1 / 20] [19 / 20], some 1,
          optThreshold [1 / 20] [19 / 20]⟩ ∧
      ∃ v, v ∈ ([(19 : ℚ) / 20] : List ℚ) ∧ 9 / 10 < v ∧
        optThreshold [1 / 20] [19 / 20] = ((v : ℚ) : WithTop ℚ)) :=
  ⟨by simp, by simp,
    separated_scores_auc_threshold [1 / 20] [19 / 20] (by simp) (by simp)
      (by intro x hx; rw [List.mem_singleton.mp hx]; norm_num)
      (by intro y hy; rw [List.mem_singleton.mp hy]; norm_num)⟩
